import Mathlib

/-!
Verification of the InfiniFuse NBT / region-file core (src/minecraft/nbt.py,
src/minecraft/chunk.py) against its natural-language specification.

Shallow embedding conventions:
* a Python bytes object is a `List Nat` (each element < 256);
* the mmap-backed region file is a `ByteFile`: a length plus a byte function;
* fallible operations return `Option` / `Except`;
* `struct.pack`/`struct.unpack` of big-endian integer formats are
  `packSigned`/`unpackSigned` (two's complement on byte lists);
* IEEE-754 Float/Double payloads are carried as their raw bit patterns,
  exactly the bytes the source keeps in `TAG._value`.

Functions of the repository's `util` module are not under src/ and are
modelled from the spec where needed (noted at each definition).
-/

namespace InfiniFuse

/-- Big-endian value of a byte list, as computed by Python
int.from_bytes(bs, 'big'). -/
def beNat (bs : List Nat) : Nat := bs.foldl (fun a b => 256 * a + b) 0

/-- Big-endian fixed-width byte string of n, as produced by Python
n.to_bytes(w, 'big') and by struct.pack of unsigned big-endian formats.
Python raises OverflowError for n >= 256 ^ w; theorems carry that bound. -/
def beBytes : Nat → Nat → List Nat
  | 0, _ => []
  | w + 1, n => beBytes w (n / 256) ++ [n % 256]

theorem beBytes_length (w n : Nat) : (beBytes w n).length = w := by
  induction w generalizing n with
  | zero => rfl
  | succ w ih => simp [beBytes, ih]

theorem beNat_aux (bs : List Nat) : ∀ a : Nat,
    bs.foldl (fun a b => 256 * a + b) a = a * 256 ^ bs.length + beNat bs := by
  induction bs with
  | nil => intro a; simp [beNat]
  | cons b bs ih =>
      intro a
      have hone : beNat (b :: bs) = b * 256 ^ bs.length + beNat bs := by
        have hdef : beNat (b :: bs)
            = List.foldl (fun a b => 256 * a + b) (256 * 0 + b) bs := rfl
        rw [hdef, ih (256 * 0 + b)]
        ring
      simp only [List.foldl_cons, List.length_cons]
      rw [ih (256 * a + b), hone]
      ring

theorem beNat_append (bs cs : List Nat) :
    beNat (bs ++ cs) = beNat bs * 256 ^ cs.length + beNat cs := by
  simp only [beNat, List.foldl_append]
  exact beNat_aux cs (List.foldl (fun a b => 256 * a + b) 0 bs)

theorem beNat_beBytes (w n : Nat) (h : n < 256 ^ w) : beNat (beBytes w n) = n := by
  induction w generalizing n with
  | zero =>
      have hn : n = 0 := by simpa using h
      subst hn
      rfl
  | succ w ih =>
      have hdiv : n / 256 < 256 ^ w := by
        rw [Nat.div_lt_iff_lt_mul (by norm_num : 0 < 256)]
        calc n < 256 ^ (w + 1) := h
          _ = 256 ^ w * 256 := by ring
      have hsing : beNat [n % 256] = n % 256 := by simp [beNat]
      simp only [beBytes, beNat_append, ih (n / 256) hdiv, hsing,
        List.length_singleton, pow_one]
      omega

/-- struct.pack for the big-endian signed formats ('>h', '>i', '>q'):
two's-complement byte string. The source raises struct.error outside
[-(256 ^ w / 2), 256 ^ w / 2); theorems carry that range hypothesis. -/
def packSigned (w : Nat) (v : Int) : List Nat := beBytes w (v % (256 ^ w)).toNat

/-- struct.unpack for the big-endian signed formats. -/
def unpackSigned (w : Nat) (bs : List Nat) : Int :=
  if beNat bs < 256 ^ w / 2 then (beNat bs : Int) else (beNat bs : Int) - 256 ^ w

theorem packSigned_length (w : Nat) (v : Int) : (packSigned w v).length = w :=
  beBytes_length _ _

theorem unpackSigned_packSigned (w : Nat) (v : Int) (hw : w ≠ 0)
    (h1 : -((256 : Int) ^ w / 2) ≤ v) (h2 : v < (256 : Int) ^ w / 2) :
    unpackSigned w (packSigned w v) = v := by
  obtain ⟨k, rfl⟩ : ∃ k, w = k + 1 := ⟨w - 1, by omega⟩
  have hP : 1 ≤ 256 ^ k := Nat.one_le_pow k 256 (by norm_num)
  have hMnat : (256 : Nat) ^ (k + 1) = 256 * 256 ^ k := by ring
  have hMint : (256 : Int) ^ (k + 1) = 256 * ((256 ^ k : Nat) : Int) := by
    push_cast
    ring
  have hhalfI : (256 : Int) ^ (k + 1) / 2 = 128 * ((256 ^ k : Nat) : Int) := by
    rw [hMint, show (256 : Int) * ((256 ^ k : Nat) : Int)
      = 2 * (128 * ((256 ^ k : Nat) : Int)) from by ring,
      Int.mul_ediv_cancel_left _ two_ne_zero]
  have hhalfN : (256 : Nat) ^ (k + 1) / 2 = 128 * 256 ^ k := by
    rw [hMnat]
    omega
  rw [hhalfI] at h1 h2
  have hnonneg : 0 ≤ v % ((256 : Int) ^ (k + 1)) := Int.emod_nonneg v (by positivity)
  have hlt : v % ((256 : Int) ^ (k + 1)) < (256 : Int) ^ (k + 1) :=
    Int.emod_lt_of_pos v (by positivity)
  have hmod : v % ((256 : Int) ^ (k + 1)) = if 0 ≤ v then v else v + (256 : Int) ^ (k + 1) := by
    split
    · refine Int.emod_eq_of_lt (by assumption) ?_
      rw [hMint]
      omega
    · have e2 : (v + (256 : Int) ^ (k + 1) * 1) % ((256 : Int) ^ (k + 1))
          = v % ((256 : Int) ^ (k + 1)) :=
        Int.add_mul_emod_self_left v ((256 : Int) ^ (k + 1)) 1
      have e3 : v + (256 : Int) ^ (k + 1) * 1 = v + (256 : Int) ^ (k + 1) := by ring
      rw [e3] at e2
      rw [← e2]
      refine Int.emod_eq_of_lt ?_ ?_
      · rw [hMint]
        omega
      · rw [hMint]
        omega
  have hx : (v % ((256 : Int) ^ (k + 1))).toNat < 256 ^ (k + 1) := by
    rw [hMint] at hlt hnonneg
    rw [hMnat]
    omega
  unfold packSigned unpackSigned
  rw [beNat_beBytes _ _ hx, hhalfN]
  rw [hMint] at hmod hnonneg hlt ⊢
  by_cases hv : 0 ≤ v
  · rw [if_pos hv] at hmod
    split <;> omega
  · rw [if_neg hv] at hmod
    split <;> omega

/-! ## NBT tag data model (src/minecraft/nbt.py)

One constructor per concrete tag class. Payloads mirror the bytes the
source keeps in `TAG._value`:
* integer tags carry their signed logical value (`byte` is unsigned, fmt 'B');
* `float`/`double` carry the raw IEEE-754 bit pattern, the exact bytes of
  `struct.pack('>f'/'>d', value)`;
* `string` carries the UTF-8 byte string of the value (the source stores
  length-prefix + bytes in `_value`; `.encode`/`.decode` round-trip is the
  identity on valid UTF-8, so we work at byte level);
* `compound` carries the insertion-ordered (name, tag) pairs of the dict. -/

inductive NBTTag where
  | endTag : NBTTag
  | byte (v : Nat) : NBTTag
  | short (v : Int) : NBTTag
  | int (v : Int) : NBTTag
  | long (v : Int) : NBTTag
  | float (bits : Nat) : NBTTag
  | double (bits : Nat) : NBTTag
  | byteArray (xs : List Nat) : NBTTag
  | string (bs : List Nat) : NBTTag
  | list (xs : List NBTTag) : NBTTag
  | compound (es : List (List Nat × NBTTag)) : NBTTag
  | intArray (xs : List Int) : NBTTag
  | longArray (xs : List Int) : NBTTag

/-- The class attribute ID of each tag type. -/
def tagId : NBTTag → Nat
  | .endTag => 0
  | .byte _ => 1
  | .short _ => 2
  | .int _ => 3
  | .long _ => 4
  | .float _ => 5
  | .double _ => 6
  | .byteArray _ => 7
  | .string _ => 8
  | .list _ => 9
  | .compound _ => 10
  | .intArray _ => 11
  | .longArray _ => 12

/-- `TAG_List.elementID`: ID of the first element, TAG_End's ID 0 when empty
(`elementType` is `type(self[0])` for non-empty lists, else `TAG_End`). -/
def elemId (xs : List NBTTag) : Nat :=
  match xs with
  | [] => 0
  | t :: _ => tagId t

/-- The extra End byte `TAG_MutableSequence.to_bytes` / `TAG_Compound.to_bytes`
append after an element or entry value that is itself a TAG_Compound
(`if isinstance(element, TAG_Compound): encoded += TAG_End().to_bytes()`). -/
def compoundEnd : NBTTag → List Nat
  | .compound _ => [0]
  | _ => []

mutual

/-- `to_bytes` of each tag class: the byte payload WITHOUT a leading type-ID
byte (the ID byte is written by the container, not by the tag itself). -/
def encodeTag : NBTTag → List Nat
  | .endTag => [0]
  | .byte v => beBytes 1 v
  | .short v => packSigned 2 v
  | .int v => packSigned 4 v
  | .long v => packSigned 8 v
  | .float b => beBytes 4 b
  | .double b => beBytes 8 b
  | .byteArray xs => packSigned 4 xs.length ++ xs
  | .string bs => packSigned 2 bs.length ++ bs
  | .list xs => beBytes 1 (elemId xs) ++ packSigned 4 xs.length ++ encodeElems xs
  | .compound es => encodeEntries es
  | .intArray xs => packSigned 4 xs.length ++ encodeInts 4 xs
  | .longArray xs => packSigned 4 xs.length ++ encodeInts 8 xs

/-- Element loop of `TAG_MutableSequence.to_bytes`. -/
def encodeElems : List NBTTag → List Nat
  | [] => []
  | t :: ts => encodeTag t ++ compoundEnd t ++ encodeElems ts

/-- Entry loop of `TAG_Compound.to_bytes`: type-ID byte, name as a
TAG_String, payload, plus an End byte after Compound-valued entries.
No trailing End byte is written for the compound itself. -/
def encodeEntries : List (List Nat × NBTTag) → List Nat
  | [] => []
  | (k, v) :: es =>
      beBytes 1 (tagId v) ++ (packSigned 2 k.length ++ k)
        ++ encodeTag v ++ compoundEnd v ++ encodeEntries es

/-- Fixed-width element loop of `TAG_Int_Array.to_bytes` / `TAG_Long_Array.to_bytes`. -/
def encodeInts (w : Nat) : List Int → List Nat
  | [] => []
  | v :: vs => packSigned w v ++ encodeInts w vs

end

/-! ## NBT binary parsers

`util.read_bytes(iterable, n)` is not under src/. Modelled from the spec:
"consuming exactly its fixed width" / "reads ... then exactly that many
bytes"; a truncated stream raises (DecodeError), modelled as `none`. -/

/-- Modelled from the spec: read exactly n bytes, failing on a short stream. -/
def readBytesN (n : Nat) (input : List Nat) : Option (List Nat × List Nat) :=
  if input.length < n then none else some (input.take n, input.drop n)

/-- `TAG_String.from_bytes`: a TAG_Short (signed, '>h') byte length, then that
many bytes. A length field with the high bit set unpacks negative, on which
`util.read_bytes` cannot yield a byte count; modelled as failure. -/
def parseStr (input : List Nat) : Option (List Nat × List Nat) :=
  match readBytesN 2 input with
  | none => none
  | some (lb, r) =>
      let n := beNat lb
      if n < 32768 then readBytesN n r else none

/-- `TAG_Int.from_bytes` used as an element count by
`TAG_MutableSequence.decode_bytes`: a signed count; `range(length)` of a
negative count is empty, hence `.toNat`. -/
def parseCount (input : List Nat) : Option (Nat × List Nat) :=
  match readBytesN 4 input with
  | none => none
  | some (cb, r) => some ((unpackSigned 4 cb).toNat, r)

/-- First-occurrence association lookup over the ordered entry list. -/
def assocGet (es : List (List Nat × NBTTag)) (k : List Nat) : Option NBTTag :=
  match es with
  | [] => none
  | (k2, v) :: es2 => if k2 = k then some v else assocGet es2 k

/-- Remove the first entry with the given name. -/
def assocErase (es : List (List Nat × NBTTag)) (k : List Nat) :
    List (List Nat × NBTTag) :=
  match es with
  | [] => []
  | (k2, v) :: es2 => if k2 = k then es2 else (k2, v) :: assocErase es2 k

/-- Python dict insertion order for `value[itemName] = itemValue` built
head-first: a duplicate name keeps its first (earliest) position but the
last value; fresh names precede the later entries. -/
def consEntry (k : List Nat) (v : NBTTag) (es : List (List Nat × NBTTag)) :
    List (List Nat × NBTTag) :=
  match assocGet es k with
  | some v2 => (k, v2) :: assocErase es k
  | none => (k, v) :: es

/-- Fixed-width element loop of array decode: cnt TAG_Int/TAG_Long parses. -/
def parseInts (w : Nat) : Nat → List Nat → Option (List Int × List Nat)
  | 0, input => some ([], input)
  | cnt + 1, input =>
      match readBytesN w input with
      | none => none
      | some (bs, r) =>
          match parseInts w cnt r with
          | none => none
          | some (vs, r2) => some (unpackSigned w bs :: vs, r2)

mutual

/-- `TAG.from_ID(id).from_bytes(input)`: the from_bytes of the tag class with
the given ID. IDs above 12 make `TAG.from_ID` fail (IndexError), hence `none`.
Fuel only bounds the recursion depth; `needFuel` below always suffices. -/
def parseTag : Nat → Nat → List Nat → Option (NBTTag × List Nat)
  | 0, _, _ => none
  | fuel + 1, id, input =>
      match id with
      | 0 => some (.endTag, input)
      | 1 =>
          match readBytesN 1 input with
          | none => none
          | some (bs, r) => some (.byte (beNat bs), r)
      | 2 =>
          match readBytesN 2 input with
          | none => none
          | some (bs, r) => some (.short (unpackSigned 2 bs), r)
      | 3 =>
          match readBytesN 4 input with
          | none => none
          | some (bs, r) => some (.int (unpackSigned 4 bs), r)
      | 4 =>
          match readBytesN 8 input with
          | none => none
          | some (bs, r) => some (.long (unpackSigned 8 bs), r)
      | 5 =>
          match readBytesN 4 input with
          | none => none
          | some (bs, r) => some (.float (beNat bs), r)
      | 6 =>
          match readBytesN 8 input with
          | none => none
          | some (bs, r) => some (.double (beNat bs), r)
      | 7 =>
          -- TAG_Byte_Array: count, then count single-byte TAG_Byte parses
          match parseCount input with
          | none => none
          | some (cnt, r) =>
              match readBytesN cnt r with
              | none => none
              | some (bs, r2) => some (.byteArray bs, r2)
      | 8 =>
          match parseStr input with
          | none => none
          | some (bs, r) => some (.string bs, r)
      | 9 =>
          -- TAG_List: element-ID byte, then count, then elements of that type
          match readBytesN 1 input with
          | none => none
          | some (eb, r) =>
              if 12 < beNat eb then none
              else
                match parseCount r with
                | none => none
                | some (cnt, r2) =>
                    match parseMany fuel (beNat eb) cnt r2 with
                    | none => none
                    | some (ts, r3) => some (.list ts, r3)
      | 10 =>
          match parseEntries fuel input with
          | none => none
          | some (es, r) => some (.compound es, r)
      | 11 =>
          match parseCount input with
          | none => none
          | some (cnt, r) =>
              match parseInts 4 cnt r with
              | none => none
              | some (vs, r2) => some (.intArray vs, r2)
      | 12 =>
          match parseCount input with
          | none => none
          | some (cnt, r) =>
              match parseInts 8 cnt r with
              | none => none
              | some (vs, r2) => some (.longArray vs, r2)
      | _ => none

/-- The `[elementType.from_bytes(iterator) for _ in range(length)]` loop. -/
def parseMany : Nat → Nat → Nat → List Nat → Option (List NBTTag × List Nat)
  | _, _, 0, input => some ([], input)
  | fuel, id, cnt + 1, input =>
      match parseTag fuel id input with
      | none => none
      | some (t, r) =>
          match parseMany fuel id cnt r with
          | none => none
          | some (ts, r2) => some (t :: ts, r2)

/-- Entry loop of `TAG_Compound.from_bytes`: read a type-ID byte (end of
stream terminates, via the caught StopIteration), ID 0 terminates, otherwise
name + payload, inserted with dict semantics. -/
def parseEntries : Nat → List Nat → Option (List (List Nat × NBTTag) × List Nat)
  | 0, _ => none
  | fuel + 1, input =>
      match input with
      | [] => some ([], [])
      | id :: rest =>
          if id = 0 then some ([], rest)
          else if 12 < id then none
          else
            match parseStr rest with
            | none => none
            | some (name, r) =>
                match parseTag fuel id r with
                | none => none
                | some (v, r2) =>
                    match parseEntries fuel r2 with
                    | none => none
                    | some (es, r3) => some (consEntry name v es, r3)

end

/-! ## Well-formed (constructible) tags

A tag is well formed when every payload is one the source can actually
construct and re-encode: integer values inside their struct format range,
bit patterns of the right width, byte values below 256, string byte length
within TAG_Short's packable range (the length prefix is packed with '>h'),
sequence lengths within TAG_Int's range, a homogeneous non-End element type
for lists, and distinct names with non-End values for compounds (TAG_End
inside a container desynchronises the encoding, as its own docstring warns). -/

def allBytes (bs : List Nat) : Bool := bs.all (fun b => b < 256)

mutual

def WFTag : NBTTag → Bool
  | .endTag => true
  | .byte v => v < 256
  | .short v => -32768 ≤ v && v < 32768
  | .int v => -2147483648 ≤ v && v < 2147483648
  | .long v => -9223372036854775808 ≤ v && v < 9223372036854775808
  | .float b => b < 4294967296
  | .double b => b < 18446744073709551616
  | .byteArray xs => allBytes xs && xs.length < 2147483648
  | .string bs => allBytes bs && bs.length < 32768
  | .list xs => WFElems xs (elemId xs) && xs.length < 2147483648 && elemId xs ≤ 12
  | .compound es => WFEntries es
  | .intArray xs =>
      (xs.all fun v => -2147483648 ≤ v && v < 2147483648) && xs.length < 2147483648
  | .longArray xs =>
      (xs.all fun v => -9223372036854775808 ≤ v && v < 9223372036854775808)
        && xs.length < 2147483648

/-- Every element well formed, of the given non-End type ID. -/
def WFElems : List NBTTag → Nat → Bool
  | [], _ => true
  | t :: ts, id => tagId t = id && tagId t ≠ 0 && WFTag t && WFElems ts id

def WFEntries : List (List Nat × NBTTag) → Bool
  | [] => true
  | (k, v) :: es =>
      allBytes k && k.length < 32768 && tagId v ≠ 0 && WFTag v
        && (assocGet es k).isNone && WFEntries es

end

/-! Fuel bookkeeping: enough recursion depth for `parseTag` on the encoding
of a given tag. -/

mutual

def needFuel : NBTTag → Nat
  | .list xs => 1 + needFuelElems xs
  | .compound es => 2 + needFuelEntries es
  | _ => 1

def needFuelElems : List NBTTag → Nat
  | [] => 0
  | t :: ts => needFuel t + needFuelElems ts

def needFuelEntries : List (List Nat × NBTTag) → Nat
  | [] => 0
  | (_, v) :: es => 1 + needFuel v + needFuelEntries es

end

theorem needFuel_pos (t : NBTTag) : 1 ≤ needFuel t := by
  cases t <;> simp [needFuel]
  omega

theorem tagId_le12 (t : NBTTag) : tagId t ≤ 12 := by
  cases t <;> simp [tagId]

theorem beBytes_one (n : Nat) (h : n < 256) : beBytes 1 n = [n] := by
  simp [beBytes]
  omega

theorem readBytesN_exact (bs rest : List Nat) :
    readBytesN bs.length (bs ++ rest) = some (bs, rest) := by
  unfold readBytesN
  rw [List.length_append, if_neg (by omega), List.take_left, List.drop_left]

theorem readBytesN_of_len (n : Nat) (bs rest : List Nat) (h : bs.length = n) :
    readBytesN n (bs ++ rest) = some (bs, rest) := by
  subst h
  exact readBytesN_exact bs rest

theorem beNat_packSigned_nat (w n : Nat) (h : n < 256 ^ w) :
    beNat (packSigned w n) = n := by
  unfold packSigned
  have hmod : ((n : Int) % (256 : Int) ^ w) = (n : Int) := by
    refine Int.emod_eq_of_lt (by positivity) ?_
    have : ((n : Int)) < ((256 ^ w : Nat) : Int) := by exact_mod_cast h
    simpa using this
  rw [hmod]
  simp only [Int.toNat_natCast]
  exact beNat_beBytes w n h

theorem parseStr_encode (k rest : List Nat) (h : k.length < 32768) :
    parseStr (packSigned 2 k.length ++ (k ++ rest)) = some (k, rest) := by
  unfold parseStr
  rw [readBytesN_of_len 2 _ _ (packSigned_length 2 _)]
  have hb : beNat (packSigned 2 k.length) = k.length :=
    beNat_packSigned_nat 2 k.length (by norm_num; omega)
  simp only [hb, if_pos h]
  exact readBytesN_exact k rest

theorem parseCount_encode (n : Nat) (rest : List Nat) (h : n < 2147483648) :
    parseCount (packSigned 4 n ++ rest) = some (n, rest) := by
  unfold parseCount
  rw [readBytesN_of_len 4 _ _ (packSigned_length 4 _)]
  have hu : unpackSigned 4 (packSigned 4 (n : Int)) = (n : Int) := by
    refine unpackSigned_packSigned 4 n (by norm_num) ?_ ?_
    · have h2 : ((256 : Int) ^ 4 / 2) = 2147483648 := by norm_num
      rw [h2]
      omega
    · have h2 : ((256 : Int) ^ 4 / 2) = 2147483648 := by norm_num
      rw [h2]
      exact_mod_cast h
  simp [hu]

theorem parseInts_encode (w : Nat) (hw : w ≠ 0) (xs : List Int) (rest : List Nat)
    (hx : ∀ v ∈ xs, -((256 : Int) ^ w / 2) ≤ v ∧ v < (256 : Int) ^ w / 2) :
    parseInts w xs.length (encodeInts w xs ++ rest) = some (xs, rest) := by
  induction xs with
  | nil => simp [parseInts, encodeInts]
  | cons v vs ih =>
      have hv := hx v (by simp)
      have hvs : ∀ u ∈ vs, -((256 : Int) ^ w / 2) ≤ u ∧ u < (256 : Int) ^ w / 2 :=
        fun u hu => hx u (by simp [hu])
      simp only [List.length_cons, encodeInts, parseInts, List.append_assoc]
      rw [readBytesN_of_len w _ _ (packSigned_length w _)]
      simp only [ih hvs, unpackSigned_packSigned w v hw hv.1 hv.2]

theorem consEntry_not_mem (k : List Nat) (v : NBTTag)
    (es : List (List Nat × NBTTag)) (h : assocGet es k = none) :
    consEntry k v es = (k, v) :: es := by
  simp [consEntry, h]

theorem beNat_singleton (n : Nat) : beNat [n] = n := by
  simp [beNat]

theorem readBytesN_one (v : Nat) (rest : List Nat) :
    readBytesN 1 (v :: rest) = some ([v], rest) := by
  simpa using readBytesN_exact [v] rest

/-! ## Round-trip induction -/

/-- parseTag inverts encodeTag for well-formed non-End tags, consuming the
container-appended End byte when the tag is a compound. -/
def ParseInv (f : Nat) : Prop :=
  ∀ t rest, WFTag t = true → tagId t ≠ 0 → needFuel t ≤ f →
    parseTag f (tagId t) (encodeTag t ++ (compoundEnd t ++ rest)) = some (t, rest)

/-- parseEntries inverts encodeEntries up to an End byte. -/
def EntriesTermInv (f : Nat) : Prop :=
  ∀ es rest, WFEntries es = true → needFuelEntries es < f →
    parseEntries f (encodeEntries es ++ 0 :: rest) = some (es, rest)

/-- parseEntries inverts encodeEntries at end of stream (the caught
StopIteration of TAG_Compound.from_bytes). -/
def EntriesEOFInv (f : Nat) : Prop :=
  ∀ es, WFEntries es = true → needFuelEntries es < f →
    parseEntries f (encodeEntries es) = some (es, [])

theorem parseMany_encode (f : Nat) (hf : ParseInv f) :
    ∀ xs id rest, WFElems xs id = true → needFuelElems xs ≤ f →
      parseMany f id xs.length (encodeElems xs ++ rest) = some (xs, rest) := by
  intro xs
  induction xs with
  | nil =>
      intro id rest _ _
      simp [encodeElems, parseMany]
  | cons t ts ih =>
      intro id rest hwf hfuel
      simp only [WFElems, Bool.and_eq_true, decide_eq_true_eq] at hwf
      obtain ⟨⟨⟨hid_t, hne⟩, hwt⟩, hwts⟩ := hwf
      subst hid_t
      simp only [needFuelElems] at hfuel
      have h1 := hf t (encodeElems ts ++ rest) hwt hne (by omega)
      have h2 := ih (tagId t) rest hwts (by omega)
      simp only [List.length_cons, parseMany, encodeElems, List.append_assoc, h1, h2]

theorem parse_encode_main (f : Nat) :
    ParseInv f ∧ EntriesTermInv f ∧ EntriesEOFInv f := by
  induction f with
  | zero =>
      refine ⟨?_, ?_, ?_⟩
      · intro t rest _ _ hfuel
        have := needFuel_pos t
        omega
      · intro es rest _ hfuel
        omega
      · intro es _ hfuel
        omega
  | succ f ihf =>
      obtain ⟨ihL, ihE1, ihE2⟩ := ihf
      have ihM := parseMany_encode f ihL
      refine ⟨?_, ?_, ?_⟩
      · intro t rest hwf hne hfuel
        cases t with
        | endTag => simp [tagId] at hne
        | byte v =>
            simp only [WFTag, decide_eq_true_eq] at hwf
            simp only [tagId, encodeTag, compoundEnd, List.nil_append]
            rw [beBytes_one v hwf]
            simp only [parseTag, List.singleton_append, readBytesN_one, beNat_singleton]
        | short v =>
            simp only [WFTag, Bool.and_eq_true, decide_eq_true_eq] at hwf
            simp only [tagId, encodeTag, compoundEnd, List.nil_append]
            have hu : unpackSigned 2 (packSigned 2 v) = v := by
              refine unpackSigned_packSigned 2 v (by norm_num) ?_ ?_
              · have h2 : ((256 : Int) ^ 2 / 2) = 32768 := by norm_num
                rw [h2]
                omega
              · have h2 : ((256 : Int) ^ 2 / 2) = 32768 := by norm_num
                rw [h2]
                omega
            simp only [parseTag, readBytesN_of_len 2 _ rest (packSigned_length 2 v), hu]
        | int v =>
            simp only [WFTag, Bool.and_eq_true, decide_eq_true_eq] at hwf
            simp only [tagId, encodeTag, compoundEnd, List.nil_append]
            have hu : unpackSigned 4 (packSigned 4 v) = v := by
              refine unpackSigned_packSigned 4 v (by norm_num) ?_ ?_
              · have h2 : ((256 : Int) ^ 4 / 2) = 2147483648 := by norm_num
                rw [h2]
                omega
              · have h2 : ((256 : Int) ^ 4 / 2) = 2147483648 := by norm_num
                rw [h2]
                omega
            simp only [parseTag, readBytesN_of_len 4 _ rest (packSigned_length 4 v), hu]
        | long v =>
            simp only [WFTag, Bool.and_eq_true, decide_eq_true_eq] at hwf
            simp only [tagId, encodeTag, compoundEnd, List.nil_append]
            have hu : unpackSigned 8 (packSigned 8 v) = v := by
              refine unpackSigned_packSigned 8 v (by norm_num) ?_ ?_
              · have h2 : ((256 : Int) ^ 8 / 2) = 9223372036854775808 := by norm_num
                rw [h2]
                omega
              · have h2 : ((256 : Int) ^ 8 / 2) = 9223372036854775808 := by norm_num
                rw [h2]
                omega
            simp only [parseTag, readBytesN_of_len 8 _ rest (packSigned_length 8 v), hu]
        | float b =>
            simp only [WFTag, decide_eq_true_eq] at hwf
            simp only [tagId, encodeTag, compoundEnd, List.nil_append]
            simp only [parseTag, readBytesN_of_len 4 _ rest (beBytes_length 4 b),
              beNat_beBytes 4 b (by norm_num; omega)]
        | double b =>
            simp only [WFTag, decide_eq_true_eq] at hwf
            simp only [tagId, encodeTag, compoundEnd, List.nil_append]
            simp only [parseTag, readBytesN_of_len 8 _ rest (beBytes_length 8 b),
              beNat_beBytes 8 b (by norm_num; omega)]
        | byteArray xs =>
            simp only [WFTag, Bool.and_eq_true, decide_eq_true_eq] at hwf
            simp only [tagId, encodeTag, compoundEnd, List.nil_append, List.append_assoc]
            simp only [parseTag, parseCount_encode xs.length (xs ++ rest) hwf.2,
              readBytesN_exact]
        | string bs =>
            simp only [WFTag, Bool.and_eq_true, decide_eq_true_eq] at hwf
            simp only [tagId, encodeTag, compoundEnd, List.nil_append, List.append_assoc]
            simp only [parseTag, parseStr_encode bs rest hwf.2]
        | list xs =>
            simp only [WFTag, Bool.and_eq_true, decide_eq_true_eq] at hwf
            obtain ⟨⟨hwel, hlen⟩, hid⟩ := hwf
            simp only [needFuel] at hfuel
            simp only [tagId, encodeTag, compoundEnd, List.nil_append, List.append_assoc]
            rw [beBytes_one (elemId xs) (by omega)]
            simp only [parseTag, List.singleton_append, readBytesN_one, beNat_singleton]
            rw [if_neg (by omega : ¬ 12 < elemId xs)]
            simp only [parseCount_encode xs.length (encodeElems xs ++ rest) hlen,
              ihM xs (elemId xs) rest hwel (by omega)]
        | compound es =>
            simp only [WFTag] at hwf
            simp only [needFuel] at hfuel
            simp only [tagId, encodeTag, compoundEnd]
            have he : encodeEntries es ++ ([0] ++ rest) = encodeEntries es ++ 0 :: rest := by
              simp
            rw [he]
            simp only [parseTag, ihE1 es rest hwf (by omega)]
        | intArray xs =>
            simp only [WFTag, Bool.and_eq_true, List.all_eq_true, decide_eq_true_eq] at hwf
            obtain ⟨hvals, hlen⟩ := hwf
            have hb : ∀ v ∈ xs, -((256 : Int) ^ 4 / 2) ≤ v ∧ v < (256 : Int) ^ 4 / 2 := by
              intro v hv
              have h2 : ((256 : Int) ^ 4 / 2) = 2147483648 := by norm_num
              rw [h2]
              exact hvals v hv
            simp only [tagId, encodeTag, compoundEnd, List.nil_append, List.append_assoc]
            simp only [parseTag, parseCount_encode xs.length (encodeInts 4 xs ++ rest) hlen,
              parseInts_encode 4 (by norm_num) xs rest hb]
        | longArray xs =>
            simp only [WFTag, Bool.and_eq_true, List.all_eq_true, decide_eq_true_eq] at hwf
            obtain ⟨hvals, hlen⟩ := hwf
            have hb : ∀ v ∈ xs, -((256 : Int) ^ 8 / 2) ≤ v ∧ v < (256 : Int) ^ 8 / 2 := by
              intro v hv
              have h2 : ((256 : Int) ^ 8 / 2) = 9223372036854775808 := by norm_num
              rw [h2]
              exact hvals v hv
            simp only [tagId, encodeTag, compoundEnd, List.nil_append, List.append_assoc]
            simp only [parseTag, parseCount_encode xs.length (encodeInts 8 xs ++ rest) hlen,
              parseInts_encode 8 (by norm_num) xs rest hb]
      · intro es rest hwf hfuel
        cases es with
        | nil => simp [encodeEntries, parseEntries]
        | cons e es2 =>
            obtain ⟨k, v⟩ := e
            simp only [WFEntries, Bool.and_eq_true, decide_eq_true_eq,
              Option.isNone_iff_eq_none] at hwf
            obtain ⟨⟨⟨⟨⟨hk256, hklen⟩, hvne⟩, hwv⟩, hnomem⟩, hwes⟩ := hwf
            simp only [needFuelEntries] at hfuel
            have hvf : needFuel v ≤ f := by omega
            have hesf : needFuelEntries es2 < f := by omega
            simp only [encodeEntries, List.append_assoc]
            rw [beBytes_one (tagId v) (by have := tagId_le12 v; omega)]
            simp only [List.singleton_append, List.cons_append, List.nil_append,
              parseEntries, if_neg hvne,
              if_neg (by have := tagId_le12 v; omega : ¬ 12 < tagId v),
              parseStr_encode k _ hklen,
              ihL v (encodeEntries es2 ++ 0 :: rest) hwv hvne hvf,
              ihE1 es2 rest hwes hesf,
              consEntry_not_mem k v es2 hnomem]
      · intro es hwf hfuel
        cases es with
        | nil => simp [encodeEntries, parseEntries]
        | cons e es2 =>
            obtain ⟨k, v⟩ := e
            simp only [WFEntries, Bool.and_eq_true, decide_eq_true_eq,
              Option.isNone_iff_eq_none] at hwf
            obtain ⟨⟨⟨⟨⟨hk256, hklen⟩, hvne⟩, hwv⟩, hnomem⟩, hwes⟩ := hwf
            simp only [needFuelEntries] at hfuel
            have hvf : needFuel v ≤ f := by omega
            have hesf : needFuelEntries es2 < f := by omega
            simp only [encodeEntries, List.append_assoc]
            rw [beBytes_one (tagId v) (by have := tagId_le12 v; omega)]
            simp only [List.singleton_append, List.cons_append, List.nil_append,
              parseEntries, if_neg hvne,
              if_neg (by have := tagId_le12 v; omega : ¬ 12 < tagId v),
              parseStr_encode k _ hklen,
              ihL v (encodeEntries es2) hwv hvne hvf,
              ihE2 es2 hwes hesf,
              consEntry_not_mem k v es2 hnomem]

/-- TAG_End.from_bytes consumes nothing, so decoding End's encoding leaves
its own byte unread; every other kind consumes its whole encoding. -/
def endResidue : NBTTag → List Nat
  | .endTag => [0]
  | _ => []

theorem c1_aux (t : NBTTag) (h : WFTag t = true) (hne : tagId t ≠ 0)
    (hce : compoundEnd t = []) (hres : endResidue t = []) :
    parseTag (needFuel t) (tagId t) (encodeTag t) = some (t, endResidue t) := by
  have hp := (parse_encode_main (needFuel t)).1 t [] h hne le_rfl
  rw [hce] at hp
  rw [hres]
  simpa using hp

/-- **C1.** For every well-formed tag t of every tag kind, decoding the bytes
produced by encoding yields the same tag: `from_bytes(to_bytes(t)) == t`,
including boundary values; for Compounds the round-trip preserves key order
and all values including nested Compounds, with the asymmetric End-byte rule:
`TAG_Compound.to_bytes` appends an End byte only after directly-owned
Compound-valued entries, the outer terminator being the caller's
responsibility (at top level the decode loop instead stops at end of
stream, so the unterminated encoding still round-trips). -/
theorem c1_roundtrip (t : NBTTag) (h : WFTag t = true) :
    parseTag (needFuel t) (tagId t) (encodeTag t) = some (t, endResidue t) := by
  cases t
  case endTag =>
      have h1 : needFuel NBTTag.endTag = 0 + 1 := by simp [needFuel]
      rw [h1]
      simp [parseTag, tagId, encodeTag, endResidue]
  case compound es =>
      obtain ⟨_, _, hE2⟩ := parse_encode_main (1 + needFuelEntries es)
      simp only [WFTag] at h
      simp only [tagId, encodeTag, needFuel, endResidue]
      rw [show 2 + needFuelEntries es = (1 + needFuelEntries es) + 1 from by omega]
      simp only [parseTag, hE2 es h (by omega)]
  all_goals exact c1_aux _ h (by simp [tagId]) rfl rfl

/-- A concrete nested compound exercising boundary values: Byte 0/255,
Long min/max, Double NaN and +Infinity bit patterns, a string, a
homogeneous list, a nested compound, and all three array kinds. -/
def c1Example : NBTTag :=
  .compound
    [ ([98, 48], .byte 0)
    , ([98, 50], .byte 255)
    , ([108, 110], .long (-9223372036854775808))
    , ([108, 120], .long 9223372036854775807)
    , ([100, 110], .double 9221120237041090560)
    , ([100, 105], .double 9218868437227405312)
    , ([115], .string [104, 105])
    , ([76], .list [.int (-2147483648), .int 2147483647])
    , ([110], .compound [([83], .short (-32768)), ([84], .short 32767)])
    , ([66], .byteArray [0, 255])
    , ([73], .intArray [-2147483648, 2147483647])
    , ([74], .longArray [-9223372036854775808, 9223372036854775807])
    ]

theorem c1Example_wf : WFTag c1Example = true := by
  simp [c1Example, WFTag, WFEntries, WFElems, allBytes, assocGet, tagId, elemId]

theorem c1_roundtrip_witness :
    WFTag c1Example = true
      ∧ parseTag (needFuel c1Example) (tagId c1Example) (encodeTag c1Example)
          = some (c1Example, endResidue c1Example) :=
  ⟨c1Example_wf, c1_roundtrip c1Example c1Example_wf⟩

/-! ## C7: the string codec's length prefix -/

/-- `TAG_String.value` setter composed with `to_bytes`: the stored `_value`
is `TAG_Short(len(utf8)).to_bytes() + utf8`. TAG_Short packs with '>h',
raising struct.error when the byte length exceeds 32767 (`none`). -/
def tagStringToBytes (bs : List Nat) : Option (List Nat) :=
  if bs.length ≤ 32767 then some (packSigned 2 bs.length ++ bs) else none

/-- **C7 counterexample.** The claim says every byte length 0 through 65535
is decodable and that `to_bytes` fails only above 65535. A string payload of
byte length 32768 (≤ 65535) is rejected by `to_bytes` (struct.error packing
the length with '>h'), and the 16-bit length field [128, 0] = 32768 makes
`from_bytes` fail (the length unpacks negative through TAG_Short). -/
theorem c7_counterexample :
    tagStringToBytes (List.replicate 32768 97) = none
      ∧ parseStr (128 :: 0 :: List.replicate 32768 97) = none
      ∧ beNat [128, 0] = 32768 ∧ 32768 ≤ 65535 := by
  refine ⟨?_, ?_, by simp [beNat], by norm_num⟩
  · rw [tagStringToBytes, List.length_replicate, if_neg (by norm_num)]
  · rw [parseStr]
    have h2 : readBytesN 2 (128 :: 0 :: List.replicate 32768 97)
        = some ([128, 0], List.replicate 32768 97) := by
      rw [show (2 : Nat) = ([128, 0] : List Nat).length from rfl,
        show (128 :: 0 :: List.replicate 32768 97 : List Nat)
          = [128, 0] ++ List.replicate 32768 97 from rfl]
      exact readBytesN_exact [128, 0] (List.replicate 32768 97)
    rw [h2]
    have h3 : beNat [128, 0] = 32768 := by simp [beNat]
    show (if beNat [128, 0] < 32768 then readBytesN (beNat [128, 0]) (List.replicate 32768 97)
      else none) = none
    rw [h3, if_neg (by norm_num)]

/-- **C7 (amended).** The string codec's length prefix is packed and
unpacked as a SIGNED 16-bit big-endian value (TAG_Short, fmt '>h'), not an
unsigned one: `from_bytes` reads the length then exactly that many UTF-8
bytes, so every byte length 0 through 32767 round-trips; `to_bytes` encodes
UTF-8 prefixed by that 16-bit length and fails with an encoding error
whenever the encoded byte length exceeds 32767 (not 65535). -/
theorem c7_string_codec (bs rest : List Nat) :
    (bs.length ≤ 32767 →
      tagStringToBytes bs = some (packSigned 2 bs.length ++ bs)
        ∧ parseStr (packSigned 2 bs.length ++ (bs ++ rest)) = some (bs, rest))
      ∧ (32767 < bs.length → tagStringToBytes bs = none) := by
  constructor
  · intro h
    exact ⟨by simp [tagStringToBytes, h], parseStr_encode bs rest (by omega)⟩
  · intro h
    simp [tagStringToBytes]
    omega

theorem c7_string_codec_witness :
    parseStr (packSigned 2 ([104, 105] : List Nat).length ++ ([104, 105] ++ [7]))
      = some ([104, 105], [7]) :=
  ((c7_string_codec [104, 105] [7]).1 (by norm_num)).2

/-! ## C8 / C10: list append coercion and raw insert -/

/-- Truncation toward zero of an IEEE-754 binary64 bit pattern: Python
int(float), as reached by integer-tag construction from a TAG_Double;
NaN and infinities raise (`none`). -/
def doubleTrunc (bits : Nat) : Option Int :=
  let sign : Nat := bits / 2 ^ 63
  let expo : Nat := bits / 2 ^ 52 % 2 ^ 11
  let frac : Nat := bits % 2 ^ 52
  if expo = 2047 then none
  else
    let m : Nat := if expo = 0 then frac else 2 ^ 52 + frac
    let e : Int := (if expo = 0 then 1 else (expo : Int)) - 1075
    let mag : Nat := if 0 ≤ e then m * 2 ^ e.toNat else m / 2 ^ (-e).toNat
    some (if sign = 1 then -(mag : Int) else (mag : Int))

/-- Truncation toward zero of an IEEE-754 binary32 bit pattern. -/
def floatTrunc (bits : Nat) : Option Int :=
  let sign : Nat := bits / 2 ^ 31
  let expo : Nat := bits / 2 ^ 23 % 2 ^ 8
  let frac : Nat := bits % 2 ^ 23
  if expo = 255 then none
  else
    let m : Nat := if expo = 0 then frac else 2 ^ 23 + frac
    let e : Int := (if expo = 0 then 1 else (expo : Int)) - 150
    let mag : Nat := if 0 ≤ e then m * 2 ^ e.toNat else m / 2 ^ (-e).toNat
    some (if sign = 1 then -(mag : Int) else (mag : Int))

/-- Python `int(x)` for a tag argument, as used by TAG_Integer construction
(`valueType = int`): integer tags convert through their __int__/__index__
wrappers, Float/Double truncate toward zero, every other tag kind raises
TypeError (no __int__ wrapper), modelled as `none`. -/
def pyIntOfTag : NBTTag → Option Int
  | .byte v => some v
  | .short v => some v
  | .int v => some v
  | .long v => some v
  | .float b => floatTrunc b
  | .double b => doubleTrunc b
  | _ => none

/-- Construction `TAG_X(value)` for an integer tag class X from another tag:
`int(value)` followed by the struct.pack range check ('B' demands [0, 256),
'>h'/'>i'/'>q' their signed ranges). Only the four integer element kinds are
modelled; conversion to String/Float element kinds involves Python
str()/float() decimal formatting and is outside the claims' scope. -/
def coerceToIntKind (id : Nat) (v : NBTTag) : Option NBTTag :=
  match pyIntOfTag v with
  | none => none
  | some n =>
      match id with
      | 1 => if 0 ≤ n ∧ n < 256 then some (.byte n.toNat) else none
      | 2 => if -32768 ≤ n ∧ n < 32768 then some (.short n) else none
      | 3 => if -2147483648 ≤ n ∧ n < 2147483648 then some (.int n) else none
      | 4 =>
          if -9223372036854775808 ≤ n ∧ n < 9223372036854775808 then some (.long n)
          else none
      | _ => none

/-- `TAG_List.append` (src/minecraft/nbt.py lines 559-566): when
`elementType` is TAG_End (empty list, or a first element that is an End tag)
any tag value is appended unconverted; otherwise
`TAG_MutableSequence.append` converts the value with
`self.elementType(value)`, raising when the conversion does (error leaves
the list unchanged). Element-kind coercion is modelled for integer element
kinds via `coerceToIntKind`. -/
def listAppend (xs : List NBTTag) (v : NBTTag) : Except String (List NBTTag) :=
  if elemId xs = 0 then .ok (xs ++ [v])
  else
    match coerceToIntKind (elemId xs) v with
    | some v2 => .ok (xs ++ [v2])
    | none => .error "conversion failed"

theorem coerceToIntKind_tagId (id : Nat) (v u : NBTTag)
    (h : coerceToIntKind id v = some u) : tagId u = id := by
  unfold coerceToIntKind at h
  cases hp : pyIntOfTag v with
  | none => rw [hp] at h; exact absurd h (by simp)
  | some n =>
      rw [hp] at h
      match id with
      | 1 =>
          simp only at h
          split at h
          · cases h; rfl
          · exact absurd h (by simp)
      | 2 =>
          simp only at h
          split at h
          · cases h; rfl
          · exact absurd h (by simp)
      | 3 =>
          simp only at h
          split at h
          · cases h; rfl
          · exact absurd h (by simp)
      | 4 =>
          simp only at h
          split at h
          · cases h; rfl
          · exact absurd h (by simp)
      | 0 => exact absurd h (by simp)
      | (m + 5) => exact absurd h (by simp)

/-- **C8 counterexample.** The claim says appending a value of a different
tag kind to a non-empty List fails with a type-mismatch error. Appending a
Byte to a non-empty Int list instead succeeds: the value is converted to the
element kind (TAG_Int(TAG_Byte(5)) = TAG_Int(5)) and stored. -/
theorem c8_counterexample :
    listAppend [NBTTag.int 7] (NBTTag.byte 5) = .ok [NBTTag.int 7, NBTTag.int 5]
      ∧ tagId (NBTTag.byte 5) ≠ tagId (NBTTag.int 7) := by
  constructor
  · simp [listAppend, elemId, tagId, coerceToIntKind, pyIntOfTag]
  · simp [tagId]

/-- **C8 (amended).** Appending to a non-empty List does not require equal
kinds: the value is CONVERTED to the list's element kind, failing only when
the conversion fails (a Byte appends into an Int list as the converted Int;
a String into an Int list fails, leaving the list unchanged); appending any
tag to an empty List (element kind End) stores it unconverted, setting the
list's element kind to the tag's kind; a successful append never changes a
non-empty List's element kind (insert, by C10, can). -/
theorem c8_append (xs : List NBTTag) (v v2 : NBTTag) (s : List Nat) :
    (elemId xs = 0 → listAppend xs v = .ok (xs ++ [v]))
      ∧ elemId [v] = tagId v
      ∧ (elemId xs ≠ 0 → listAppend xs v = .ok (xs ++ [v2]) → tagId v2 = elemId xs)
      ∧ (elemId xs ≠ 0 → listAppend xs v = .ok (xs ++ [v2])
          → elemId (xs ++ [v2]) = elemId xs)
      ∧ (elemId xs = 3 → listAppend xs (.string s) = .error "conversion failed")
      ∧ (elemId xs = 3 → listAppend xs (.byte 5) = .ok (xs ++ [.int 5])) := by
  refine ⟨?_, by simp [elemId], ?_, ?_, ?_, ?_⟩
  · intro h
    simp [listAppend, h]
  · intro hne happ
    simp only [listAppend, if_neg hne] at happ
    cases hc : coerceToIntKind (elemId xs) v with
    | none => rw [hc] at happ; exact absurd happ (by simp)
    | some u =>
        rw [hc] at happ
        simp only [Except.ok.injEq, List.append_cancel_left_eq, List.cons.injEq] at happ
        obtain ⟨rfl, -⟩ := happ
        exact coerceToIntKind_tagId _ _ _ hc
  · intro hne happ
    cases xs with
    | nil => simp [elemId] at hne
    | cons t ts => simp [elemId]
  · intro h3
    simp [listAppend, h3, coerceToIntKind, pyIntOfTag]
  · intro h3
    simp [listAppend, h3, coerceToIntKind, pyIntOfTag]

theorem c8_append_witness :
    listAppend [NBTTag.int 7] (NBTTag.string [104]) = .error "conversion failed"
      ∧ listAppend ([] : List NBTTag) (NBTTag.string [104])
          = .ok [NBTTag.string [104]] :=
  ⟨(c8_append [NBTTag.int 7] (NBTTag.byte 0) (NBTTag.byte 0) [104]).2.2.2.2.1
      (by simp [elemId, tagId]),
    (c8_append [] (NBTTag.string [104]) (NBTTag.byte 0) [104]).1 (by simp [elemId])⟩

/-- `TAG_MutableSequence.insert` (src/minecraft/nbt.py lines 234-235):
`self.value = self[:key] + [value] + self[key:]` — the raw value is spliced
in with no elementType conversion and no kind check (unlike append and
__setitem__, which both call `self.elementType(value)`). -/
def listInsert (xs : List NBTTag) (k : Nat) (v : NBTTag) : List NBTTag :=
  xs.take k ++ [v] ++ xs.drop k

/-- **C10.** insert stores the value itself at position k, shifting the
suffix and converting nothing: the stored element is `v` (any kind), items
before k are unchanged, items from k on shift up by one; inserting at the
head of a non-empty list can therefore change the list's element kind to
the kind of the raw inserted tag. -/
theorem c10_insert_raw (xs : List NBTTag) (k : Nat) (v : NBTTag)
    (hk : k ≤ xs.length) :
    (listInsert xs k v)[k]? = some v
      ∧ (∀ i, i < k → (listInsert xs k v)[i]? = xs[i]?)
      ∧ (∀ i, k ≤ i → (listInsert xs k v)[i + 1]? = xs[i]?)
      ∧ listInsert xs 0 v = v :: xs
      ∧ (xs ≠ [] → elemId (listInsert xs 0 v) = tagId v) := by
  refine ⟨?_, ?_, ?_, by simp [listInsert], ?_⟩
  · have hlen : (xs.take k).length = k := by rw [List.length_take]; omega
    rw [listInsert, List.append_assoc,
      List.getElem?_append_right (by rw [List.length_take]; omega)]
    simp [hlen]
  · intro i hi
    rw [listInsert, List.append_assoc,
      List.getElem?_append_left (by rw [List.length_take]; omega)]
    exact List.getElem?_take_of_lt hi
  · intro i hi
    have hlen : (xs.take k).length = k := by rw [List.length_take]; omega
    rw [listInsert, List.append_assoc,
      List.getElem?_append_right (by rw [List.length_take]; omega)]
    rw [hlen, show i + 1 - k = (i - k) + 1 from by omega]
    rw [List.singleton_append, List.getElem?_cons_succ, List.getElem?_drop]
    congr 1
    omega
  · intro hne
    simp [listInsert, elemId]

theorem c10_insert_raw_witness :
    (listInsert [NBTTag.int 7] 0 (NBTTag.string [104]))[0]? = some (NBTTag.string [104])
      ∧ listInsert [NBTTag.int 7] 0 (NBTTag.string [104])
          = [NBTTag.string [104], NBTTag.int 7] := by
  have h := c10_insert_raw [NBTTag.int 7] 0 (NBTTag.string [104]) (by simp)
  exact ⟨h.1, h.2.2.2.1⟩

/-! ## Region files (src/minecraft/chunk.py)

The mmap-backed .mca file: a length plus a byte function. Reads past the
length yield 0 (mmap zero-fills growth; in-range accesses are the ones the
theorems constrain). Slice assignment never changes the length; Python mmap
raises on a misfitting slice, and the places where fit matters are enforced
by hypotheses. -/

structure ByteFile where
  len : Nat
  data : Nat → Nat

def readB (f : ByteFile) (k : Nat) : Nat := if k < f.len then f.data k else 0

/-- MCA[a : a + len(v)] = v. -/
def setSliceB (f : ByteFile) (a : Nat) (v : List Nat) : ByteFile :=
  ⟨f.len, fun k => if a ≤ k ∧ k < a + v.length then v.getD (k - a) 0 else f.data k⟩

/-- MCA[a] = v. -/
def setByteB (f : ByteFile) (a v : Nat) : ByteFile :=
  ⟨f.len, fun k => if k = a then v else f.data k⟩

/-- MCA[a:b] as a byte list. -/
def sliceB (f : ByteFile) (a b : Nat) : List Nat :=
  (List.range (b - a)).map (fun i => readB f (a + i))

/-- mmap.resize: truncate, or zero-extend, to n bytes. -/
def resizeB (f : ByteFile) (n : Nat) : ByteFile :=
  ⟨n, fun k => if k < f.len then f.data k else 0⟩

/-- Lines 190-192: `data = MCA[oldStart:]; MCA.resize(newLen);
MCA[newStart:] = data`. The snapshot is taken before the resize; Python
requires it to fit exactly (newLen - newStart = len - oldStart), which the
hypotheses of the theorems below imply. -/
def moveTail (f : ByteFile) (oldStart newLen newStart : Nat) : ByteFile :=
  ⟨newLen, fun k =>
    if newStart ≤ k ∧ k < newStart + (f.len - oldStart)
    then readB f (oldStart + (k - newStart))
    else (resizeB f newLen).data k⟩

/-- Header byte position of a chunk, `(4 * (x + z * 32)) % 1024`: the same
expression in `Chunk.open` (line 113) and `Chunk.write` (line 159). Python %
on a positive modulus is nonnegative, as is Int.emod. -/
def headerPos (x z : Int) : Nat := ((4 * (x + z * 32)) % 1024).toNat

/-- 3-byte big-endian sector offset of header entry i. -/
def entryOff (f : ByteFile) (i : Nat) : Nat := beNat (sliceB f (4 * i) (4 * i + 3))

/-- offset + sectorCount of header entry i. -/
def entryEnd (f : ByteFile) (i : Nat) : Nat := entryOff f i + readB f (4 * i + 3)

/-- Line 165: `max(2,*[int.from_bytes(MCA[i*4:i*4+3], 'big')+MCA[i*4+3] for i
in range(1024)])` without the outer 2 (applied at use site). -/
def maxEntryEnd (f : ByteFile) : Nat :=
  (List.range 1024).foldl (fun m i => max m (entryEnd f i)) 0

/-- One step of the offset-bump loop (lines 181-185): an entry whose stored
offset exceeds the written chunk's offset gets offset + sectorChange.
`(oldOffset + sectorChange).to_bytes(3, 'big')` raises outside [0, 2^24);
the theorems' hypotheses keep the value in range. -/
def bumpStep (offset : Nat) (delta : Int) (f : ByteFile) (i : Nat) : ByteFile :=
  if offset < entryOff f i
  then setSliceB f (4 * i) (beBytes 3 ((entryOff f i : Int) + delta).toNat)
  else f

def bumpHeaders (f : ByteFile) (offset : Nat) (delta : Int) : ByteFile :=
  (List.range 1024).foldl (bumpStep offset delta) f

/-- The sector offset `Chunk.write` chooses (lines 160-168): the stored
3-byte offset when non-zero, else `max(2, <maximum entry end>)`. -/
def chunkOffset (f : ByteFile) (x z : Int) : Nat :=
  let h := headerPos x z
  let offset0 := beNat (sliceB f h (h + 3))
  if offset0 = 0 then max 2 (maxEntryEnd f) else offset0

/-- The compression scheme byte `Chunk.write` uses (lines 164-168): 2 (zlib)
for a fresh slot, else the byte stored at `4096*offset + 4`. -/
def chunkCompression (f : ByteFile) (x z : Int) : Nat :=
  let h := headerPos x z
  let offset0 := beNat (sliceB f h (h + 3))
  if offset0 = 0 then 2 else readB f (4096 * offset0 + 4)

/-- The header + data writes of `Chunk.write` (lines 194-203): location
entry (3-byte offset, 1-byte sector count), timestamp, then 4-byte length,
compression-scheme byte, and compressed payload at the chosen offset. -/
def writeBack (f1 : ByteFile) (h offset newSC ts length : Nat)
    (compression : Nat) (chunkData : List Nat) : ByteFile :=
  let f2 := setSliceB f1 h (beBytes 3 offset)
  let f3 := setByteB f2 (h + 3) newSC
  let f4 := setSliceB f3 (h + 4096) (beBytes 4 ts)
  let f5 := setSliceB f4 (4096 * offset) (beBytes 4 length)
  let f6 := setByteB f5 (4096 * offset + 4) compression
  setSliceB f6 (4096 * offset + 5) chunkData

/-- `Chunk.write` (lines 155-203) on an existing file. `compressFn` stands
for the external `compress(self.to_bytes(), compression)` black box (the
spec treats compression as an external collaborator), mapping the chosen
scheme to the compressed payload. The move target `4096 * (offset + newSC)`
is the source's `oldStart + 4096 * sectorChange`, and the new length
`len + sectorChange * 4096`, both written in Nat-safe form. -/
def chunkWrite (f : ByteFile) (x z : Int) (compressFn : Nat → List Nat)
    (ts : Nat) : ByteFile :=
  let h := headerPos x z
  let offset := chunkOffset f x z
  let compression := chunkCompression f x z
  let chunkData := compressFn compression
  let length := chunkData.length + 1
  let oldSC := readB f (h + 3)
  let newSC := 1 + length / 4096
  let f1 :=
    if newSC = oldSC then f
    else
      let g := bumpHeaders f offset ((newSC : Int) - (oldSC : Int))
      moveTail g (4096 * (offset + oldSC))
        (((g.len : Int) + ((newSC : Int) - (oldSC : Int)) * 4096).toNat)
        (4096 * (offset + newSC))
  writeBack f1 h offset newSC ts length compression chunkData

/-! Basic file lemmas. -/

theorem setSliceB_len (f : ByteFile) (a : Nat) (v : List Nat) :
    (setSliceB f a v).len = f.len := rfl

theorem setByteB_len (f : ByteFile) (a v : Nat) : (setByteB f a v).len = f.len := rfl

theorem moveTail_len (f : ByteFile) (oS nL nS : Nat) :
    (moveTail f oS nL nS).len = nL := rfl

theorem readB_congr (g f : ByteFile) (k : Nat) (hlen : g.len = f.len)
    (hdata : f.len ≤ k ∨ g.data k = f.data k) : readB g k = readB f k := by
  unfold readB
  rw [hlen]
  by_cases hk : k < f.len
  · rw [if_pos hk, if_pos hk]
    rcases hdata with h | h
    · omega
    · rw [h]
  · rw [if_neg hk, if_neg hk]

theorem setSliceB_data_out (f : ByteFile) (a : Nat) (v : List Nat) (k : Nat)
    (h : k < a ∨ a + v.length ≤ k) : (setSliceB f a v).data k = f.data k := by
  show (if a ≤ k ∧ k < a + v.length then v.getD (k - a) 0 else f.data k) = f.data k
  rw [if_neg (by omega)]

theorem readB_setSliceB_out (f : ByteFile) (a : Nat) (v : List Nat) (k : Nat)
    (h : k < a ∨ a + v.length ≤ k) : readB (setSliceB f a v) k = readB f k :=
  readB_congr _ _ _ rfl (Or.inr (setSliceB_data_out f a v k h))

theorem readB_setSliceB_in (f : ByteFile) (a : Nat) (v : List Nat) (k : Nat)
    (h1 : a ≤ k) (h2 : k < a + v.length) (h3 : k < f.len) :
    readB (setSliceB f a v) k = v.getD (k - a) 0 := by
  show (if k < (setSliceB f a v).len then (setSliceB f a v).data k else 0) = _
  rw [setSliceB_len, if_pos h3]
  show (if a ≤ k ∧ k < a + v.length then v.getD (k - a) 0 else f.data k) = _
  rw [if_pos ⟨h1, h2⟩]

theorem setByteB_data_out (f : ByteFile) (a v k : Nat) (h : k ≠ a) :
    (setByteB f a v).data k = f.data k := by
  show (if k = a then v else f.data k) = f.data k
  rw [if_neg h]

theorem readB_setByteB_out (f : ByteFile) (a v k : Nat) (h : k ≠ a) :
    readB (setByteB f a v) k = readB f k :=
  readB_congr _ _ _ rfl (Or.inr (setByteB_data_out f a v k h))

theorem readB_setByteB_in (f : ByteFile) (a v : Nat) (h : a < f.len) :
    readB (setByteB f a v) a = v := by
  show (if a < (setByteB f a v).len then (setByteB f a v).data a else 0) = v
  rw [setByteB_len, if_pos h]
  show (if a = a then v else f.data a) = v
  rw [if_pos rfl]

theorem readB_resizeB (f : ByteFile) (n k : Nat) (h : k < n) :
    readB (resizeB f n) k = readB f k := by
  show (if k < n then (if k < f.len then f.data k else 0) else 0) = readB f k
  rw [if_pos h]
  rfl

theorem readB_moveTail_in (f : ByteFile) (oS nL nS k : Nat)
    (h1 : nS ≤ k) (h2 : k < nS + (f.len - oS)) (h3 : k < nL) :
    readB (moveTail f oS nL nS) k = readB f (oS + (k - nS)) := by
  show (if k < nL then (moveTail f oS nL nS).data k else 0) = _
  rw [if_pos h3]
  show (if nS ≤ k ∧ k < nS + (f.len - oS) then readB f (oS + (k - nS))
    else (resizeB f nL).data k) = _
  rw [if_pos ⟨h1, h2⟩]

theorem readB_moveTail_out (f : ByteFile) (oS nL nS k : Nat)
    (hwin : k < nS ∨ nS + (f.len - oS) ≤ k) (hk : k < f.len) (hkn : k < nL) :
    readB (moveTail f oS nL nS) k = readB f k := by
  show (if k < nL then (moveTail f oS nL nS).data k else 0) = _
  rw [if_pos hkn]
  show (if nS ≤ k ∧ k < nS + (f.len - oS) then readB f (oS + (k - nS))
    else (resizeB f nL).data k) = _
  rw [if_neg (by omega)]
  show (if k < f.len then f.data k else 0) = _
  rw [if_pos hk]
  show f.data k = readB f k
  unfold readB
  rw [if_pos hk]

theorem entryOff_congr (g f : ByteFile) (i : Nat)
    (h : ∀ k, 4 * i ≤ k → k < 4 * i + 3 → readB g k = readB f k) :
    entryOff g i = entryOff f i := by
  unfold entryOff sliceB
  congr 1
  refine List.map_congr_left ?_
  intro j hj
  have hj3 : j < 3 := by simpa using hj
  exact h (4 * i + j) (by omega) (by omega)

theorem bumpStep_len (o : Nat) (d : Int) (f : ByteFile) (i : Nat) :
    (bumpStep o d f i).len = f.len := by
  unfold bumpStep
  split
  · rfl
  · rfl

theorem bump_foldl_len (o : Nat) (d : Int) (l : List Nat) (f : ByteFile) :
    (l.foldl (bumpStep o d) f).len = f.len := by
  induction l generalizing f with
  | nil => rfl
  | cons i l ih => rw [List.foldl_cons, ih, bumpStep_len]

theorem readB_bumpStep_out (o : Nat) (d : Int) (f : ByteFile) (i k : Nat)
    (h : k < 4 * i ∨ 4 * i + 3 ≤ k) : readB (bumpStep o d f i) k = readB f k := by
  unfold bumpStep
  split
  · exact readB_setSliceB_out _ _ _ _ (by rw [beBytes_length]; omega)
  · rfl

theorem readB_bump_foldl_out (o : Nat) (d : Int) (l : List Nat) (f : ByteFile)
    (k : Nat) (h : ∀ i ∈ l, k < 4 * i ∨ 4 * i + 3 ≤ k) :
    readB (l.foldl (bumpStep o d) f) k = readB f k := by
  induction l generalizing f with
  | nil => rfl
  | cons i l ih =>
      rw [List.foldl_cons, ih _ (fun j hj => h j (by simp [hj])),
        readB_bumpStep_out _ _ _ _ _ (h i (by simp))]

theorem entryOff_bumpStep_out (o : Nat) (d : Int) (f : ByteFile) (i j : Nat)
    (hij : i ≠ j) : entryOff (bumpStep o d f i) j = entryOff f j :=
  entryOff_congr _ _ _ (fun k hk1 hk2 =>
    readB_bumpStep_out o d f i k (by omega))

theorem sliceB_setSliceB (f : ByteFile) (a : Nat) (v : List Nat)
    (h : a + v.length ≤ f.len) :
    sliceB (setSliceB f a v) a (a + v.length) = v := by
  unfold sliceB
  rw [show a + v.length - a = v.length from by omega]
  refine List.ext_getElem (by simp) ?_
  intro m hm1 hm2
  rw [List.getElem_map, List.getElem_range,
    readB_setSliceB_in f a v (a + m) (by omega) (by omega) (by omega),
    show a + m - a = m from by omega]
  exact List.getD_eq_getElem v 0 hm2

theorem entryOff_bump_foldl (o : Nat) (d : Int) (l : List Nat) (f : ByteFile)
    (j : Nat) (hj : j ∈ l) (hnd : l.Nodup) (hlen : 4 * j + 3 ≤ f.len)
    (hr : o < entryOff f j → ((entryOff f j : Int) + d).toNat < 16777216) :
    entryOff (l.foldl (bumpStep o d) f) j
        = (if o < entryOff f j then ((entryOff f j : Int) + d).toNat
           else entryOff f j)
      ∧ readB (l.foldl (bumpStep o d) f) (4 * j + 3) = readB f (4 * j + 3) := by
  induction l generalizing f with
  | nil => simp at hj
  | cons i l ih =>
      rw [List.foldl_cons]
      have hnd2 := List.nodup_cons.mp hnd
      rcases List.mem_cons.mp hj with rfl | hjl
      · have hnotin : j ∉ l := hnd2.1
        have hout3 : ∀ k, 4 * j ≤ k → k < 4 * j + 3 →
            readB (l.foldl (bumpStep o d) (bumpStep o d f j)) k
              = readB (bumpStep o d f j) k := by
          intro k hk1 hk2
          refine readB_bump_foldl_out o d l _ k ?_
          intro i2 hi2
          have hne : i2 ≠ j := fun he => hnotin (he ▸ hi2)
          omega
        constructor
        · rw [entryOff_congr _ _ _ hout3]
          unfold bumpStep
          have key : ∀ n : Nat, n < 16777216 →
              entryOff (setSliceB f (4 * j) (beBytes 3 n)) j = n := by
            intro n hn
            unfold entryOff
            rw [show 4 * j + 3 = 4 * j + (beBytes 3 n).length
                from by rw [beBytes_length],
              sliceB_setSliceB f _ _ (by rw [beBytes_length]; omega),
              beNat_beBytes _ _ (by norm_num; omega)]
          split
          · rename_i hlt
            exact key _ (hr hlt)
          · rfl
        · rw [readB_bump_foldl_out o d l _ _ ?_]
          · exact readB_bumpStep_out o d f j (4 * j + 3) (by omega)
          · intro i2 hi2
            have hne : i2 ≠ j := fun he => hnotin (he ▸ hi2)
            omega
      · have hij : i ≠ j := fun he => hnd2.1 (he ▸ hjl)
        have he1 : entryOff (bumpStep o d f i) j = entryOff f j :=
          entryOff_bumpStep_out o d f i j hij
        have he2 : readB (bumpStep o d f i) (4 * j + 3) = readB f (4 * j + 3) :=
          readB_bumpStep_out o d f i (4 * j + 3) (by omega)
        have hlen2 : 4 * j + 3 ≤ (bumpStep o d f i).len := by
          rw [bumpStep_len]; exact hlen
        have := ih (bumpStep o d f i) hjl hnd2.2 hlen2 (by rw [he1]; exact hr)
        rw [he1, he2] at this
        exact this

theorem entryOff_bumpHeaders (f : ByteFile) (o : Nat) (d : Int) (j : Nat)
    (hj : j < 1024) (hlen : 4 * j + 3 ≤ f.len)
    (hr : o < entryOff f j → ((entryOff f j : Int) + d).toNat < 16777216) :
    entryOff (bumpHeaders f o d) j
        = (if o < entryOff f j then ((entryOff f j : Int) + d).toNat
           else entryOff f j)
      ∧ readB (bumpHeaders f o d) (4 * j + 3) = readB f (4 * j + 3) :=
  entryOff_bump_foldl o d (List.range 1024) f j (List.mem_range.mpr hj)
    (List.nodup_range _) hlen hr

theorem bumpHeaders_len (f : ByteFile) (o : Nat) (d : Int) :
    (bumpHeaders f o d).len = f.len :=
  bump_foldl_len o d _ f

theorem readB_bumpHeaders_out (f : ByteFile) (o : Nat) (d : Int) (k : Nat)
    (h : 4095 ≤ k) : readB (bumpHeaders f o d) k = readB f k :=
  readB_bump_foldl_out o d _ f k (fun i hi => by
    have := List.mem_range.mp hi
    omega)

theorem headerPos_spec (x z : Int) : headerPos x z ≤ 1020 ∧ headerPos x z % 4 = 0 := by
  unfold headerPos
  have h1024 : (1024 : Int) = 4 * 256 := by norm_num
  have hmul : (4 * (x + z * 32)) % 1024 = 4 * ((x + z * 32) % 256) := by
    rw [h1024]
    exact Int.mul_emod_mul_of_pos _ _ (by norm_num)
  rw [hmul]
  have hlo : 0 ≤ (x + z * 32) % 256 := Int.emod_nonneg _ (by norm_num)
  have hhi : (x + z * 32) % 256 < 256 := Int.emod_lt_of_pos _ (by norm_num)
  omega

/-- **C2 (amended).** When a chunk write changes the slot's sector count
(and the stored length fits the counted sectors, length % 4096 <= 4092 —
see the counterexample for lengths the off-by-one sector formula of C5
undercounts), `write`:
* changes the file length by exactly (newSectorCount - oldSectorCount) * 4096;
* shifts every byte at or after the old slot's end
  (4096 * (offset + oldSectorCount)) by that same delta;
* adds the delta to the 3-byte offset field of every other header entry
  whose offset is greater than this chunk's offset;
* leaves every other header entry with offset less than or equal to this
  chunk's unchanged (offset field and sector-count byte).
The range hypotheses mirror where Python would raise: a 3-byte offset field
only holds [0, 2^24), and the slot must lie inside the file. -/
theorem c2_resize_shift (f : ByteFile) (x z : Int) (cf : Nat → List Nat)
    (ts : Nat) (h offset oldSC newSC oldStart newStart : Nat) (d : Int)
    (hh : h = headerPos x z)
    (hoffdef : offset = chunkOffset f x z)
    (hoscdef : oldSC = readB f (h + 3))
    (hnscdef : newSC = 1 + ((cf (chunkCompression f x z)).length + 1) / 4096)
    (hddef : d = (newSC : Int) - (oldSC : Int))
    (hosdef : oldStart = 4096 * (offset + oldSC))
    (hnsdef : newStart = 4096 * (offset + newSC))
    (hlen8k : 8192 ≤ f.len)
    (hne : newSC ≠ oldSC)
    (hoff2 : 2 ≤ offset)
    (hOldStart : oldStart ≤ f.len)
    (hfit : ((cf (chunkCompression f x z)).length + 1) % 4096 ≤ 4092)
    (hbump : ∀ i, i < 1024 → offset < entryOff f i →
        0 ≤ (entryOff f i : Int) + d ∧ (entryOff f i : Int) + d < 16777216) :
    (((chunkWrite f x z cf ts).len : Int) = (f.len : Int) + d * 4096)
      ∧ (∀ k, oldStart ≤ k → k < f.len →
          readB (chunkWrite f x z cf ts) (k - oldStart + newStart) = readB f k)
      ∧ (∀ i, i < 1024 → i ≠ h / 4 → offset < entryOff f i →
          (entryOff (chunkWrite f x z cf ts) i : Int) = (entryOff f i : Int) + d)
      ∧ (∀ i, i < 1024 → i ≠ h / 4 → entryOff f i ≤ offset →
          entryOff (chunkWrite f x z cf ts) i = entryOff f i
            ∧ readB (chunkWrite f x z cf ts) (4 * i + 3) = readB f (4 * i + 3)) := by
  obtain ⟨hhle, hh4⟩ := headerPos_spec x z
  rw [← hh] at hhle hh4
  subst hddef hosdef hnsdef
  have hL : ∀ c, (cf c).length = (cf c).length := fun _ => rfl
  refine ⟨?_, ?_, ?_, ?_⟩
  · -- length change
    simp only [chunkWrite, writeBack, ← hh, ← hoffdef, ← hoscdef, ← hnscdef]
    rw [if_neg hne]
    simp only [setSliceB_len, setByteB_len, moveTail_len, bumpHeaders_len]
    omega
  · -- byte shift
    intro k hk1 hk2
    simp only [chunkWrite, writeBack, ← hh, ← hoffdef, ← hoscdef, ← hnscdef]
    rw [if_neg hne]
    rw [readB_setSliceB_out _ _ _ _ (by right; omega)]
    rw [readB_setByteB_out _ _ _ _ (by omega)]
    rw [readB_setSliceB_out _ _ _ _ (by rw [beBytes_length]; right; omega)]
    rw [readB_setSliceB_out _ _ _ _ (by rw [beBytes_length]; right; omega)]
    rw [readB_setByteB_out _ _ _ _ (by omega)]
    rw [readB_setSliceB_out _ _ _ _ (by rw [beBytes_length]; right; omega)]
    rw [readB_moveTail_in _ _ _ _ _ (by omega)
      (by rw [bumpHeaders_len]; omega) (by rw [bumpHeaders_len]; omega)]
    rw [show 4096 * (offset + oldSC) + (k - 4096 * (offset + oldSC)
          + 4096 * (offset + newSC) - 4096 * (offset + newSC)) = k from by omega]
    exact readB_bumpHeaders_out f offset _ k (by omega)
  · -- bumped entries
    intro i hi hih hgt
    have hcongr : ∀ k2, 4 * i ≤ k2 → k2 < 4 * i + 3 →
        readB (chunkWrite f x z cf ts) k2
          = readB (bumpHeaders f offset ((newSC : Int) - (oldSC : Int))) k2 := by
      intro k2 hk1 hk2
      simp only [chunkWrite, writeBack, ← hh, ← hoffdef, ← hoscdef, ← hnscdef]
      rw [if_neg hne]
      rw [readB_setSliceB_out _ _ _ _ (by left; omega)]
      rw [readB_setByteB_out _ _ _ _ (by omega)]
      rw [readB_setSliceB_out _ _ _ _ (by rw [beBytes_length]; left; omega)]
      rw [readB_setSliceB_out _ _ _ _ (by rw [beBytes_length]; left; omega)]
      rw [readB_setByteB_out _ _ _ _ (by omega)]
      rw [readB_setSliceB_out _ _ _ _ (by rw [beBytes_length]; omega)]
      rw [readB_moveTail_out _ _ _ _ _ (by left; omega)
        (by rw [bumpHeaders_len]; omega) (by rw [bumpHeaders_len]; omega)]
    have hb := hbump i hi hgt
    have hmain := (entryOff_bumpHeaders f offset ((newSC : Int) - (oldSC : Int)) i
      (by omega) (by omega) (fun _ => by omega)).1
    rw [entryOff_congr _ _ _ hcongr, hmain, if_pos hgt]
    omega
  · -- untouched entries
    intro i hi hih hle
    have hcongr : ∀ k2, 4 * i ≤ k2 → k2 < 4 * i + 3 →
        readB (chunkWrite f x z cf ts) k2
          = readB (bumpHeaders f offset ((newSC : Int) - (oldSC : Int))) k2 := by
      intro k2 hk1 hk2
      simp only [chunkWrite, writeBack, ← hh, ← hoffdef, ← hoscdef, ← hnscdef]
      rw [if_neg hne]
      rw [readB_setSliceB_out _ _ _ _ (by left; omega)]
      rw [readB_setByteB_out _ _ _ _ (by omega)]
      rw [readB_setSliceB_out _ _ _ _ (by rw [beBytes_length]; left; omega)]
      rw [readB_setSliceB_out _ _ _ _ (by rw [beBytes_length]; left; omega)]
      rw [readB_setByteB_out _ _ _ _ (by omega)]
      rw [readB_setSliceB_out _ _ _ _ (by rw [beBytes_length]; omega)]
      rw [readB_moveTail_out _ _ _ _ _ (by left; omega)
        (by rw [bumpHeaders_len]; omega) (by rw [bumpHeaders_len]; omega)]
    have hmain := entryOff_bumpHeaders f offset ((newSC : Int) - (oldSC : Int)) i
      (by omega) (by omega) (fun hcontra => by omega)
    constructor
    · rw [entryOff_congr _ _ _ hcongr, hmain.1, if_neg (by omega)]
    · have hcount : readB (chunkWrite f x z cf ts) (4 * i + 3)
          = readB (bumpHeaders f offset ((newSC : Int) - (oldSC : Int))) (4 * i + 3) := by
        simp only [chunkWrite, writeBack, ← hh, ← hoffdef, ← hoscdef, ← hnscdef]
        rw [if_neg hne]
        rw [readB_setSliceB_out _ _ _ _ (by left; omega)]
        rw [readB_setByteB_out _ _ _ _ (by omega)]
        rw [readB_setSliceB_out _ _ _ _ (by rw [beBytes_length]; left; omega)]
        rw [readB_setSliceB_out _ _ _ _ (by rw [beBytes_length]; left; omega)]
        rw [readB_setByteB_out _ _ _ _ (by omega)]
        rw [readB_setSliceB_out _ _ _ _ (by rw [beBytes_length]; omega)]
        rw [readB_moveTail_out _ _ _ _ _ (by left; omega)
          (by rw [bumpHeaders_len]; omega) (by rw [bumpHeaders_len]; omega)]
      rw [hcount, hmain.2]

/-- A 5-sector region file whose slot (0,0) occupies sectors 2-3 and whose
byte at 16384 (the old slot's end) is a marker 7. -/
def c2File : ByteFile :=
  ⟨20480, fun k => if k = 2 then 2 else if k = 3 then 2 else if k = 16384 then 7 else 0⟩

/-- Writing 4092 bytes of compressed data into that slot: stored length
4093, so newSectorCount = 1 + 4093 / 4096 = 1 while the payload needs
4097 bytes — the undercount flagged in C5. -/
def c2Out : ByteFile := chunkWrite c2File 0 0 (fun _ => List.replicate 4092 0) 0

/-- Reading byte m of the just-written compressed payload back from the
file: `Chunk.write`'s final slice assignment places chunkData at
`4096*offset + 5`, regardless of whether it crosses the counted-sector
boundary (the C5 undercount). Sector-count-changed branch. -/
theorem readB_chunkWrite_payload (f : ByteFile) (x z : Int)
    (cf : Nat → List Nat) (ts : Nat) (h offset oldSC newSC : Nat) (d : Int)
    (m : Nat)
    (hh : h = headerPos x z)
    (hoffdef : offset = chunkOffset f x z)
    (hoscdef : oldSC = readB f (h + 3))
    (hnscdef : newSC = 1 + ((cf (chunkCompression f x z)).length + 1) / 4096)
    (hddef : d = (newSC : Int) - (oldSC : Int))
    (hne : newSC ≠ oldSC)
    (hm : m < (cf (chunkCompression f x z)).length)
    (hp : 4096 * offset + 5 + m < ((f.len : Int) + d * 4096).toNat) :
    readB (chunkWrite f x z cf ts) (4096 * offset + 5 + m)
      = (cf (chunkCompression f x z)).getD m 0 := by
  subst hddef
  simp only [chunkWrite, writeBack, ← hh, ← hoffdef, ← hoscdef, ← hnscdef]
  rw [if_neg hne]
  rw [readB_setSliceB_in _ _ _ _ (by omega) (by omega)
    (by simp only [setSliceB_len, setByteB_len, moveTail_len, bumpHeaders_len]
        omega)]
  rw [show 4096 * offset + 5 + m - (4096 * offset + 5) = m from by omega]

set_option maxRecDepth 10000 in
theorem c2Out_read : readB c2Out 12288 = 0 := by
  have h2 : chunkOffset c2File 0 0 = 2 := by decide
  have key := readB_chunkWrite_payload c2File 0 0 (fun _ => List.replicate 4092 0)
    0 (headerPos 0 0) 2 2 1 (-1) 4091 rfl h2.symm (by decide)
    (by rw [show ((fun _ => List.replicate 4092 0) (chunkCompression c2File 0 0)
            : List Nat) = List.replicate 4092 0 from rfl]
        rw [List.length_replicate])
    (by norm_num) (by norm_num)
    (by rw [show ((fun _ => List.replicate 4092 0) (chunkCompression c2File 0 0)
            : List Nat) = List.replicate 4092 0 from rfl]
        rw [List.length_replicate]
        norm_num)
    (by decide)
  rw [show (4096 * 2 + 5 + 4091 : Nat) = 12288 from by norm_num] at key
  show readB (chunkWrite c2File 0 0 (fun _ => List.replicate 4092 0) 0) 12288 = 0
  rw [key]
  rw [show ((fun _ => List.replicate 4092 0) (chunkCompression c2File 0 0)
      : List Nat) = List.replicate 4092 0 from rfl]
  rw [List.getD_eq_getElem?_getD,
    List.getElem?_replicate_of_lt (by norm_num : (4091 : Nat) < 4092)]
  rfl

/-- **C2 counterexample.** The sector count shrinks from 2 to 1, so the
claim requires the byte at the old slot's end 16384 to move by
-4096 to 12288; instead the chunk-data write (which under the C5 formula
overruns its single counted sector by one byte) overwrites position 12288
with the last payload byte 0, losing the shifted marker 7. -/
theorem c2_counterexample :
    readB c2File 16384 = 7
      ∧ readB c2File (headerPos 0 0 + 3) = 2
      ∧ chunkOffset c2File 0 0 = 2
      ∧ 1 + ((List.replicate 4092 (0 : Nat)).length + 1) / 4096 = 1
      ∧ 16384 = 4096 * (chunkOffset c2File 0 0 + readB c2File (headerPos 0 0 + 3))
      ∧ readB c2Out (16384 - 16384 + 12288) = 0
      ∧ readB c2Out (16384 - 16384 + 12288) ≠ readB c2File 16384 := by
  have hr : readB c2Out (16384 - 16384 + 12288) = 0 := by
    rw [show 16384 - 16384 + 12288 = 12288 from by norm_num]
    exact c2Out_read
  have hm : readB c2File 16384 = 7 := by decide
  exact ⟨hm, by decide, by decide, by rw [List.length_replicate], by decide, hr,
    by rw [hr, hm]; norm_num⟩

/-! ## C3 / C5: allocation and the sector-count formula -/

theorem sliceB_congr (g f : ByteFile) (a b : Nat)
    (h : ∀ k, a ≤ k → k < b → readB g k = readB f k) :
    sliceB g a b = sliceB f a b := by
  unfold sliceB
  refine List.map_congr_left ?_
  intro j hj
  have hj2 : j < b - a := by simpa using hj
  exact h (a + j) (by omega) (by omega)

theorem foldl_max_ge_init (g : Nat → Nat) (l : List Nat) (acc : Nat) :
    acc ≤ l.foldl (fun m i => max m (g i)) acc := by
  induction l generalizing acc with
  | nil => simp
  | cons i l ih =>
      simp only [List.foldl_cons]
      calc acc ≤ max acc (g i) := le_max_left _ _
        _ ≤ _ := ih _

theorem foldl_max_ge (g : Nat → Nat) (l : List Nat) (acc i : Nat) (hi : i ∈ l) :
    g i ≤ l.foldl (fun m j => max m (g j)) acc := by
  induction l generalizing acc with
  | nil => simp at hi
  | cons j l ih =>
      simp only [List.foldl_cons]
      rcases List.mem_cons.mp hi with rfl | hil
      · calc g i ≤ max acc (g i) := le_max_right _ _
          _ ≤ _ := foldl_max_ge_init _ _ _
      · exact ih _ hil

theorem foldl_max_cases (g : Nat → Nat) (l : List Nat) (acc : Nat) :
    l.foldl (fun m i => max m (g i)) acc = acc
      ∨ ∃ i ∈ l, l.foldl (fun m j => max m (g j)) acc = g i := by
  induction l generalizing acc with
  | nil => left; rfl
  | cons j l ih =>
      simp only [List.foldl_cons]
      rcases ih (max acc (g j)) with h | ⟨i, hil, h⟩
      · rcases Nat.le_total acc (g j) with hle | hle
        · right
          exact ⟨j, by simp, by rw [h]; omega⟩
        · left
          rw [h]; omega
      · right
        exact ⟨i, by simp [hil], h⟩

/-- maxEntryEnd is an upper bound of every entry's offset + sectorCount. -/
theorem maxEntryEnd_ge (f : ByteFile) (i : Nat) (hi : i < 1024) :
    entryEnd f i ≤ maxEntryEnd f :=
  foldl_max_ge (entryEnd f) (List.range 1024) 0 i (List.mem_range.mpr hi)

/-- maxEntryEnd is attained by some entry (or the file has no used sectors). -/
theorem maxEntryEnd_cases (f : ByteFile) :
    maxEntryEnd f = 0 ∨ ∃ i, i < 1024 ∧ maxEntryEnd f = entryEnd f i := by
  rcases foldl_max_cases (entryEnd f) (List.range 1024) 0 with h | ⟨i, hil, h⟩
  · left; exact h
  · right; exact ⟨i, List.mem_range.mp hil, h⟩

theorem writeBack_len (f1 : ByteFile) (h offset newSC ts length compression : Nat)
    (chunkData : List Nat) :
    (writeBack f1 h offset newSC ts length compression chunkData).len = f1.len := by
  simp only [writeBack, setSliceB_len, setByteB_len]

/-- Reading the slot's 3-byte offset field back after the final writes. -/
theorem writeBack_ownEntry (f1 : ByteFile) (h offset newSC ts length compression : Nat)
    (chunkData : List Nat) (hhle : h ≤ 1020) (hoff2 : 2 ≤ offset)
    (hoffb : offset < 16777216) (hlen : 8192 ≤ f1.len) :
    beNat (sliceB (writeBack f1 h offset newSC ts length compression chunkData)
      h (h + 3)) = offset := by
  have hcongr : ∀ k, h ≤ k → k < h + 3 →
      readB (writeBack f1 h offset newSC ts length compression chunkData) k
        = readB (setSliceB f1 h (beBytes 3 offset)) k := by
    intro k hk1 hk2
    simp only [writeBack]
    rw [readB_setSliceB_out _ _ _ _ (by left; omega)]
    rw [readB_setByteB_out _ _ _ _ (by omega)]
    rw [readB_setSliceB_out _ _ _ _ (by rw [beBytes_length]; left; omega)]
    rw [readB_setSliceB_out _ _ _ _ (by rw [beBytes_length]; left; omega)]
    rw [readB_setByteB_out _ _ _ _ (by omega)]
  rw [sliceB_congr _ _ _ _ hcongr]
  rw [show h + 3 = h + (beBytes 3 offset).length from by rw [beBytes_length]]
  rw [sliceB_setSliceB _ _ _ (by rw [beBytes_length]; omega)]
  exact beNat_beBytes _ _ (by norm_num; omega)

/-- Reading the slot's sector-count byte back after the final writes. -/
theorem writeBack_sectorCount (f1 : ByteFile)
    (h offset newSC ts length compression : Nat) (chunkData : List Nat)
    (hhle : h ≤ 1020) (hoff2 : 2 ≤ offset) (hlen : 8192 ≤ f1.len) :
    readB (writeBack f1 h offset newSC ts length compression chunkData) (h + 3)
      = newSC := by
  simp only [writeBack]
  rw [readB_setSliceB_out _ _ _ _ (by left; omega)]
  rw [readB_setByteB_out _ _ _ _ (by omega)]
  rw [readB_setSliceB_out _ _ _ _ (by rw [beBytes_length]; left; omega)]
  rw [readB_setSliceB_out _ _ _ _ (by rw [beBytes_length]; left; omega)]
  exact readB_setByteB_in _ _ _ (by rw [setSliceB_len]; omega)

/-- Reading the chunk's compression-scheme byte back after the final writes. -/
theorem writeBack_compression (f1 : ByteFile)
    (h offset newSC ts length compression : Nat) (chunkData : List Nat)
    (hpos : 4096 * offset + 4 < f1.len) :
    readB (writeBack f1 h offset newSC ts length compression chunkData)
      (4096 * offset + 4) = compression := by
  simp only [writeBack]
  rw [readB_setSliceB_out _ _ _ _ (by left; omega)]
  exact readB_setByteB_in _ _ _ (by simp only [setSliceB_len, setByteB_len]; omega)

/-- Reading the chunk's 4-byte length field back after the final writes. -/
theorem writeBack_lengthField (f1 : ByteFile)
    (h offset newSC ts length compression : Nat) (chunkData : List Nat)
    (hlen32 : length < 4294967296)
    (hpos : 4096 * offset + 4 ≤ f1.len) :
    beNat (sliceB (writeBack f1 h offset newSC ts length compression chunkData)
      (4096 * offset) (4096 * offset + 4)) = length := by
  have hcongr : ∀ k, 4096 * offset ≤ k → k < 4096 * offset + 4 →
      readB (writeBack f1 h offset newSC ts length compression chunkData) k
        = readB (setSliceB (setSliceB (setByteB (setSliceB f1 h (beBytes 3 offset))
            (h + 3) newSC) (h + 4096) (beBytes 4 ts)) (4096 * offset)
            (beBytes 4 length)) k := by
    intro k hk1 hk2
    simp only [writeBack]
    rw [readB_setSliceB_out _ _ _ _ (by left; omega)]
    rw [readB_setByteB_out _ _ _ _ (by omega)]
  rw [sliceB_congr _ _ _ _ hcongr]
  rw [show 4096 * offset + 4 = 4096 * offset + (beBytes 4 length).length
    from by rw [beBytes_length]]
  rw [sliceB_setSliceB _ _ _
    (by simp only [beBytes_length, setSliceB_len, setByteB_len]; omega)]
  exact beNat_beBytes _ _ (by norm_num; omega)

/-- **C3 (amended).** Slot allocation by `Chunk.write`: the fresh-allocation
branch triggers exactly when the slot's stored 3-byte offset is ZERO (line
164's `offset == 0` test) — not when the slot is Absent in the sense of the
presence test of `Chunk.open` (offset < 2 or sectorCount = 0; see the
counterexample for a spec-Absent slot with raw offset 1 that is NOT
re-allocated). When the stored offset is zero, the chosen sector offset is
`max(2, maximum over all 1024 header entries of (offset + sectorCount))` —
appending past the highest currently-used sector (`maxEntryEnd` really is
that maximum: see maxEntryEnd_ge / maxEntryEnd_cases) — and the compression
scheme is 2 (zlib); writing into an empty all-zero-header region file
places the chunk at sector offset 2 (witness). When the stored offset is
non-zero (even the reserved offset 1, or a slot with sector count 0), that
offset is kept and the compression scheme byte stored in the file at
`4096*offset + 4` is reused. The chosen offset and scheme are what `write`
leaves in the file: the slot's header entry holds the offset, and the
chunk's compression byte equals the chosen scheme. -/
theorem c3_allocation (f : ByteFile) (x z : Int) (cf : Nat → List Nat)
    (ts : Nat) (h offset oldSC newSC : Nat)
    (hh : h = headerPos x z)
    (hoffdef : offset = chunkOffset f x z)
    (hoscdef : oldSC = readB f (h + 3))
    (hnscdef : newSC = 1 + ((cf (chunkCompression f x z)).length + 1) / 4096)
    (hlen8k : 8192 ≤ f.len)
    (hoff2 : 2 ≤ offset)
    (hoffb : offset < 16777216)
    (hOldStart : 4096 * (offset + oldSC) ≤ f.len) :
    (beNat (sliceB f h (h + 3)) = 0 →
        offset = max 2 (maxEntryEnd f) ∧ chunkCompression f x z = 2)
      ∧ (beNat (sliceB f h (h + 3)) ≠ 0 →
          offset = beNat (sliceB f h (h + 3))
            ∧ chunkCompression f x z
                = readB f (4096 * beNat (sliceB f h (h + 3)) + 4))
      ∧ beNat (sliceB (chunkWrite f x z cf ts) h (h + 3)) = offset
      ∧ readB (chunkWrite f x z cf ts) (4096 * offset + 4)
          = chunkCompression f x z := by
  obtain ⟨hhle, hh4⟩ := headerPos_spec x z
  rw [← hh] at hhle hh4
  refine ⟨?_, ?_, ?_, ?_⟩
  · intro h0
    constructor
    · rw [hoffdef, chunkOffset, ← hh, h0]
      simp
    · rw [chunkCompression, ← hh, h0]
      simp
  · intro h0
    constructor
    · rw [hoffdef, chunkOffset, ← hh, if_neg h0]
    · rw [chunkCompression, ← hh, if_neg h0]
  · simp only [chunkWrite, ← hh, ← hoffdef, ← hoscdef, ← hnscdef]
    refine writeBack_ownEntry _ _ _ _ _ _ _ _ hhle hoff2 hoffb ?_
    split
    · exact hlen8k
    · rw [moveTail_len, bumpHeaders_len]
      omega
  · simp only [chunkWrite, ← hh, ← hoffdef, ← hoscdef, ← hnscdef]
    refine writeBack_compression _ _ _ _ _ _ _ _ ?_
    split
    · rename_i heq
      omega
    · rw [moveTail_len, bumpHeaders_len]
      omega

/-- **C5.** For every payload of compressed length L written by the
allocator, the recorded sector count equals exactly
`1 + floor((L + 1) / 4096)` — the source's exact formula (line 176),
undercount included — where L + 1 is the stored 4-byte length field
covering the compression-scheme byte plus the compressed data (both read
back from the written file). The hypothesis newSC < 256 mirrors the mmap
single-byte store, length < 2^32 the 4-byte length field. -/
theorem c5_sector_count (f : ByteFile) (x z : Int) (cf : Nat → List Nat)
    (ts : Nat) (h offset oldSC newSC : Nat)
    (hh : h = headerPos x z)
    (hoffdef : offset = chunkOffset f x z)
    (hoscdef : oldSC = readB f (h + 3))
    (hnscdef : newSC = 1 + ((cf (chunkCompression f x z)).length + 1) / 4096)
    (hlen8k : 8192 ≤ f.len)
    (hoff2 : 2 ≤ offset)
    (hOldStart : 4096 * (offset + oldSC) ≤ f.len)
    (_hsc255 : newSC < 256)
    (hlen32 : (cf (chunkCompression f x z)).length + 1 < 4294967296) :
    readB (chunkWrite f x z cf ts) (h + 3)
        = 1 + ((cf (chunkCompression f x z)).length + 1) / 4096
      ∧ beNat (sliceB (chunkWrite f x z cf ts) (4096 * offset)
          (4096 * offset + 4)) = (cf (chunkCompression f x z)).length + 1 := by
  obtain ⟨hhle, hh4⟩ := headerPos_spec x z
  rw [← hh] at hhle
  constructor
  · rw [← hnscdef]
    simp only [chunkWrite, ← hh, ← hoffdef, ← hoscdef, ← hnscdef]
    refine writeBack_sectorCount _ _ _ _ _ _ _ _ hhle hoff2 ?_
    split
    · exact hlen8k
    · rw [moveTail_len, bumpHeaders_len]
      omega
  · simp only [chunkWrite, ← hh, ← hoffdef, ← hoscdef, ← hnscdef]
    refine writeBack_lengthField _ _ _ _ _ _ _ _ (by omega) ?_
    split
    · rename_i heq
      omega
    · rw [moveTail_len, bumpHeaders_len]
      omega

theorem beNat_cons (b : Nat) (bs : List Nat) :
    beNat (b :: bs) = b * 256 ^ bs.length + beNat bs := by
  have hdef : beNat (b :: bs)
      = List.foldl (fun a c => 256 * a + c) (256 * 0 + b) bs := rfl
  rw [hdef, beNat_aux bs (256 * 0 + b)]
  ring

theorem beNat_zeros (n : Nat) : beNat (List.replicate n 0) = 0 := by
  induction n with
  | zero => rfl
  | succ n ih =>
      rw [List.replicate_succ, beNat_cons, ih]
      ring

theorem sliceB_zeros (f : ByteFile) (a b : Nat)
    (hz : ∀ k, a ≤ k → k < b → readB f k = 0) :
    sliceB f a b = List.replicate (b - a) 0 := by
  unfold sliceB
  rw [List.map_congr_left (fun j hj => hz (a + j) (by omega)
    (by have := List.mem_range.mp hj; omega))]
  rw [List.map_const', List.length_range]

/-- An all-zero region file: fresh 8 KiB header, no chunks. -/
def c3File : ByteFile := ⟨8192, fun _ => 0⟩

theorem c3File_zero (k : Nat) : readB c3File k = 0 := by
  simp [readB, c3File]

theorem c3File_maxEntryEnd : maxEntryEnd c3File = 0 := by
  rcases maxEntryEnd_cases c3File with hm | ⟨i, hi, hm⟩
  · exact hm
  · rw [hm]
    unfold entryEnd entryOff
    rw [sliceB_zeros c3File _ _ (fun k h1 h2 => c3File_zero k), beNat_zeros,
      c3File_zero]

theorem c3File_chunkOffset : chunkOffset c3File 0 0 = 2 := by
  simp only [chunkOffset]
  rw [sliceB_zeros c3File _ _ (fun k h1 h2 => c3File_zero k), beNat_zeros]
  simp [c3File_maxEntryEnd]

theorem c3_allocation_witness :
    (beNat (sliceB c3File (headerPos 0 0) (headerPos 0 0 + 3)) = 0 →
        2 = max 2 (maxEntryEnd c3File) ∧ chunkCompression c3File 0 0 = 2)
      ∧ (beNat (sliceB c3File (headerPos 0 0) (headerPos 0 0 + 3)) ≠ 0 →
          2 = beNat (sliceB c3File (headerPos 0 0) (headerPos 0 0 + 3))
            ∧ chunkCompression c3File 0 0
                = readB c3File
                    (4096 * beNat (sliceB c3File (headerPos 0 0)
                      (headerPos 0 0 + 3)) + 4))
      ∧ beNat (sliceB (chunkWrite c3File 0 0 (fun _ => [1, 2, 3]) 7)
          (headerPos 0 0) (headerPos 0 0 + 3)) = 2
      ∧ readB (chunkWrite c3File 0 0 (fun _ => [1, 2, 3]) 7) (4096 * 2 + 4)
          = chunkCompression c3File 0 0 :=
  c3_allocation c3File 0 0 (fun _ => [1, 2, 3]) 7 (headerPos 0 0) 2 0 1 rfl
    c3File_chunkOffset.symm (c3File_zero _).symm (by decide) (by decide)
    (by decide) (by decide) (by decide)

theorem c5_sector_count_witness :
    readB (chunkWrite c3File 0 0 (fun _ => [1, 2, 3]) 7) (headerPos 0 0 + 3)
        = 1 + (((fun _ => [1, 2, 3] : Nat → List Nat)
            (chunkCompression c3File 0 0)).length + 1) / 4096
      ∧ beNat (sliceB (chunkWrite c3File 0 0 (fun _ => [1, 2, 3]) 7)
          (4096 * 2) (4096 * 2 + 4))
          = (((fun _ => [1, 2, 3] : Nat → List Nat)
              (chunkCompression c3File 0 0)).length + 1) :=
  c5_sector_count c3File 0 0 (fun _ => [1, 2, 3]) 7 (headerPos 0 0) 2 0 1 rfl
    c3File_chunkOffset.symm (c3File_zero _).symm (by decide) (by decide)
    (by decide) (by decide) (by decide) (by decide)

/-- A region file whose slot (0,0) stores raw offset 1 (< 2, so Absent by
the presence test of `Chunk.open`) with sector count 1. -/
def c3AFile : ByteFile :=
  ⟨8192, fun k => if k = 2 then 1 else if k = 3 then 1 else 0⟩

theorem c3AFile_read_ge4 (k : Nat) (hk : 4 ≤ k) : readB c3AFile k = 0 := by
  unfold readB c3AFile
  simp only
  split
  · rw [if_neg (by omega), if_neg (by omega)]
  · rfl

theorem c3AFile_maxEntryEnd : maxEntryEnd c3AFile = 2 := by
  have h0 : entryEnd c3AFile 0 = 2 := by decide
  have hge := maxEntryEnd_ge c3AFile 0 (by norm_num)
  rw [h0] at hge
  rcases maxEntryEnd_cases c3AFile with hm | ⟨i, hi, hm⟩
  · omega
  · rcases Nat.eq_zero_or_pos i with rfl | hpos
    · rw [hm, h0]
    · have he : entryOff c3AFile i = 0 := by
        unfold entryOff
        rw [sliceB_zeros c3AFile _ _
          (fun k h1 h2 => c3AFile_read_ge4 k (by omega)), beNat_zeros]
      unfold entryEnd at hm
      rw [he, c3AFile_read_ge4 (4 * i + 3) (by omega)] at hm
      omega

/-- **C3 counterexample.** A slot storing raw offset 1 with sector count 1
is Absent per the claim's presence criterion (offset < 2), yet `write`'s
fresh-allocation branch (line 164) tests the stored offset against 0 only:
the offset is kept, so the written file's header entry still holds 1, not
the claimed `max(2, maximum entry end) = 2`, and the "compression byte" is
reused from byte 4096*1 + 4 = 4100, inside the timestamp table. -/
theorem c3_counterexample :
    beNat (sliceB c3AFile (headerPos 0 0) (headerPos 0 0 + 3)) = 1
      ∧ readB c3AFile (headerPos 0 0 + 3) = 1
      ∧ chunkOffset c3AFile 0 0 = 1
      ∧ max 2 (maxEntryEnd c3AFile) = 2
      ∧ chunkCompression c3AFile 0 0 = readB c3AFile (4096 * 1 + 4)
      ∧ beNat (sliceB (chunkWrite c3AFile 0 0 (fun _ => [9]) 0)
          (headerPos 0 0) (headerPos 0 0 + 3)) = 1
      ∧ beNat (sliceB (chunkWrite c3AFile 0 0 (fun _ => [9]) 0)
          (headerPos 0 0) (headerPos 0 0 + 3)) ≠ max 2 (maxEntryEnd c3AFile) := by
  refine ⟨by decide, by decide, by decide,
    by rw [c3AFile_maxEntryEnd]; decide, by decide, by decide, ?_⟩
  rw [c3AFile_maxEntryEnd]
  decide

/-- A 4-sector region file: slot (0,0) at offset 2 with 2 sectors. -/
def c2WFile : ByteFile :=
  ⟨16384, fun k => if k = 2 then 2 else if k = 3 then 2 else 0⟩

theorem c2WFile_read_ge4 (k : Nat) (hk : 4 ≤ k) : readB c2WFile k = 0 := by
  unfold readB c2WFile
  simp only
  split
  · rw [if_neg (by omega), if_neg (by omega)]
  · rfl

theorem c2WFile_entryOff_pos (i : Nat) (hi : 1 ≤ i) : entryOff c2WFile i = 0 := by
  unfold entryOff
  rw [sliceB_zeros c2WFile _ _ (fun k h1 h2 => c2WFile_read_ge4 k (by omega)),
    beNat_zeros]

theorem c2_resize_shift_witness :
    (((chunkWrite c2WFile 0 0 (fun _ => [1, 2, 3]) 5).len : Int)
        = (c2WFile.len : Int) + (-1) * 4096)
      ∧ (∀ k, 16384 ≤ k → k < c2WFile.len →
          readB (chunkWrite c2WFile 0 0 (fun _ => [1, 2, 3]) 5)
              (k - 16384 + 12288) = readB c2WFile k)
      ∧ (∀ i, i < 1024 → i ≠ headerPos 0 0 / 4 → 2 < entryOff c2WFile i →
          (entryOff (chunkWrite c2WFile 0 0 (fun _ => [1, 2, 3]) 5) i : Int)
            = (entryOff c2WFile i : Int) + (-1))
      ∧ (∀ i, i < 1024 → i ≠ headerPos 0 0 / 4 → entryOff c2WFile i ≤ 2 →
          entryOff (chunkWrite c2WFile 0 0 (fun _ => [1, 2, 3]) 5) i
              = entryOff c2WFile i
            ∧ readB (chunkWrite c2WFile 0 0 (fun _ => [1, 2, 3]) 5) (4 * i + 3)
                = readB c2WFile (4 * i + 3)) :=
  c2_resize_shift c2WFile 0 0 (fun _ => [1, 2, 3]) 5 (headerPos 0 0) 2 2 1
    16384 12288 (-1) rfl (by decide) (by decide) (by decide) (by decide)
    (by decide) (by decide) (by decide) (by decide) (by decide) (by decide)
    (by decide)
    (by intro i hi hgt
        rcases Nat.eq_zero_or_pos i with rfl | hpos
        · have h0 : entryOff c2WFile 0 = 2 := by decide
          omega
        · rw [c2WFile_entryOff_pos i hpos] at hgt
          omega)

/-! ## C4: header addressing and the presence test of `Chunk.open` -/

/-- The presence test of `Chunk.open` (lines 113-127): the header position
is `(4 * (x + z * 32)) % 1024`, the stored 3-byte offset is multiplied by
4096 BEFORE the `offset >= 2` comparison, absence raising FileNotFoundError
otherwise. -/
def chunkPresent (f : ByteFile) (x z : Int) : Bool :=
  let h := headerPos x z
  let offset := 4096 * beNat (sliceB f h (h + 3))
  let sectorCount := readB f (h + 3)
  decide (0 < sectorCount) && decide (2 ≤ offset)

/-- A region file whose slot at header position 0 stores raw offset 1
(a reserved header sector: the claim calls this chunk absent) with sector
count 1. -/
def c4File : ByteFile :=
  ⟨8192, fun k => if k = 2 then 1 else if k = 3 then 1 else 0⟩

/-- **C4** (evaluating the code at the failing inputs). The claim says the
location entry of chunk (x, z) lives at byte 4*((x mod 32) + 32*(z mod 32))
and that the chunk is absent exactly when offset < 2 or sectorCount = 0.
The code instead computes (4*(x + z*32)) mod 1024: for (x, z) = (0, 8) that
is 0, not the claimed 1024, colliding with chunk (0, 0)'s entry; and its
presence test compares 4096*offset with 2, so raw offset 1 (< 2, reserved)
is treated as present. -/
theorem c4_code_divergence :
    headerPos 0 8 = 0
      ∧ (4 * (((0 : Int) % 32) + 32 * ((8 : Int) % 32))).toNat = 1024
      ∧ headerPos 0 0 = headerPos 0 8
      ∧ chunkPresent c4File 0 0 = true
      ∧ beNat (sliceB c4File (headerPos 0 0) (headerPos 0 0 + 3)) = 1
      ∧ 0 < readB c4File (headerPos 0 0 + 3) := by
  refine ⟨by decide, by decide, by decide, by decide, by decide, by decide⟩

/-! ## C6 / C9: the block-state decoder (`Chunk.get_block`) -/

/-- `TAG.Compound({'Name': TAG.String('minecraft:air')})` with UTF-8 keys
and values as byte lists. -/
def airTag : NBTTag :=
  .compound [([78, 97, 109, 101],
    .string [109, 105, 110, 101, 99, 114, 97, 102, 116, 58, 97, 105, 114])]

/-- One entry of the chunk's Sections list, as `get_block` reads it:
its Y tag, its Palette list when the key is present, and its packed
BlockStates longs (signed 64-bit values). -/
structure SectionData where
  y : Int
  palette : Option (List NBTTag)
  blockStates : List Int

/-- Python int.bit_length for a nonnegative value. -/
def pyBitLength (n : Nat) : Nat := if n = 0 then 0 else Nat.log2 n + 1

/-- Modelled from the spec: `util.get_bits(num, start, end)` (util is not
under src/) — the bit window [start, stop) of num, "the bitWidth-bit field
ending at bit 64 - subIndex*bitWidth ... of the unsigned reinterpretation". -/
def get_bits (num start stop : Nat) : Nat := num / 2 ^ start % 2 ^ (stop - start)

/-- `TAG_Integer.unsigned` for a TAG_Long: the '>q' bytes reinterpreted as
'>Q', i.e. the value modulo 2^64. -/
def unsigned64 (v : Int) : Nat := (v % (2 ^ 64 : Int)).toNat

/-- `Chunk.get_block` (src/minecraft/chunk.py lines 70-104). Out-of-range
coordinates raise IndexError; a missing matching section or a section
without a Palette key resolves to the air tag; otherwise the palette entry
selected by the extracted bit field is returned, with IndexError when the
packed-long index or the palette index is out of range. -/
def get_block (sections : List SectionData) (x y z : Int) : Except String NBTTag :=
  if ¬ (0 ≤ x ∧ x ≤ 15) ∨ ¬ (0 ≤ y ∧ y ≤ 255) ∨ ¬ (0 ≤ z ∧ z ≤ 15) then
    .error "IndexError: invalid block position"
  else
    let sectionID := y / 16
    let y2 := y % 16
    match sections.find? (fun s => s.y == sectionID) with
    | none => .ok airTag
    | some sec =>
        match sec.palette with
        | none => .ok airTag
        | some pal =>
            let bitLen := max 4 (pyBitLength pal.length)
            let blocksPerEntry := 64 / bitLen
            let block := (y2 * 256 + z * 16 + x).toNat
            let index := block / blocksPerEntry
            let subIndex := block % blocksPerEntry
            let lastBit := 64 - subIndex * bitLen
            match sec.blockStates[index]? with
            | none => .error "IndexError: BlockStates"
            | some long =>
                match pal[get_bits (unsigned64 long) (lastBit - bitLen) lastBit]? with
                | none => .error "IndexError: Palette"
                | some b => .ok b

/-- **C6.** For in-bounds coordinates and a chunk whose matching section and
palette are present, get_block computes bitWidth = max(4,
bit_length(paletteSize)), entriesPerLong = 64 / bitWidth (integer
division), flat block index (y mod 16)*256 + z*16 + x, (longIndex,
subIndex) = divmod(blockIndex, entriesPerLong), and returns the palette
entry selected by the bitWidth-bit field ending at bit 64 -
subIndex*bitWidth of the unsigned reinterpretation of the longIndex-th
packed Long; palette size 3 gives bitWidth 4 and entriesPerLong 16, and
block index 0 extracts the top 4 bits of the first Long. -/
theorem c6_block_decode (sections : List SectionData) (x y z : Int)
    (sec : SectionData) (pal : List NBTTag) (long : Int) (b : NBTTag)
    (bitLen epl block index subIndex lastBit id2 : Nat)
    (hx1 : 0 ≤ x) (hx2 : x ≤ 15) (hy1 : 0 ≤ y) (hy2 : y ≤ 255)
    (hz1 : 0 ≤ z) (hz2 : z ≤ 15)
    (hfind : sections.find? (fun s => s.y == y / 16) = some sec)
    (hpal : sec.palette = some pal)
    (hbl : bitLen = max 4 (pyBitLength pal.length))
    (hepl : epl = 64 / bitLen)
    (hblock : (block : Int) = (y % 16) * 256 + z * 16 + x)
    (hidx : index = block / epl)
    (hsub : subIndex = block % epl)
    (hlast : lastBit = 64 - subIndex * bitLen)
    (hlong : sec.blockStates[index]? = some long)
    (hid : id2 = get_bits (unsigned64 long) (lastBit - bitLen) lastBit)
    (hb : pal[id2]? = some b) :
    get_block sections x y z = .ok b
      ∧ max 4 (pyBitLength 3) = 4
      ∧ 64 / max 4 (pyBitLength 3) = 16
      ∧ get_bits (unsigned64 long) (64 - 4) 64 = unsigned64 long / 2 ^ 60 := by
  refine ⟨?_, by norm_num [pyBitLength, Nat.log2], by norm_num [pyBitLength, Nat.log2], ?_⟩
  · unfold get_block
    rw [if_neg (by omega)]
    simp only [hfind, hpal]
    have hblock2 : ((y % 16) * 256 + z * 16 + x).toNat = block := by
      rw [← hblock]
      exact Int.toNat_natCast block
    simp only [hblock2, ← hbl, ← hepl, ← hidx, ← hsub, ← hlast, hlong, ← hid, hb]
  · unfold get_bits
    have hu : unsigned64 long < 2 ^ 64 := by
      unfold unsigned64
      have h1 : long % ((2 : Int) ^ 64) < 2 ^ 64 :=
        Int.emod_lt_of_pos long (by positivity)
      omega
    have : unsigned64 long / 2 ^ 60 < 2 ^ 4 := by omega
    rw [show (64 : Nat) - (64 - 4) = 4 from rfl]
    omega

/-- Section 0 with a palette of size 3 and one packed Long
0x123456789ABCDEF0; its top 4 bits select palette entry 1. -/
def c6Sections : List SectionData :=
  [⟨0, some [.string [97], .string [98], .string [99]], [1311768467463790320]⟩]

theorem c6_block_decode_witness :
    get_block c6Sections 0 0 0 = .ok (NBTTag.string [98])
      ∧ max 4 (pyBitLength 3) = 4
      ∧ 64 / max 4 (pyBitLength 3) = 16
      ∧ get_bits (unsigned64 1311768467463790320) (64 - 4) 64
          = unsigned64 1311768467463790320 / 2 ^ 60 :=
  c6_block_decode c6Sections 0 0 0
    ⟨0, some [.string [97], .string [98], .string [99]], [1311768467463790320]⟩
    [.string [97], .string [98], .string [99]] 1311768467463790320
    (NBTTag.string [98]) 4 16 0 0 0 64 1
    (by decide) (by decide) (by decide) (by decide) (by decide) (by decide)
    rfl rfl (by norm_num [pyBitLength, Nat.log2]) (by decide) (by decide)
    (by decide) (by decide) (by decide) rfl (by decide) rfl

/-- **C9 counterexample.** A section whose Palette key is present but holds
an empty list does NOT resolve to air: bitWidth is max(4, (0).bit_length())
= 4 and the lookup `section['Palette'][blockStateID]` raises IndexError on
the empty palette. -/
theorem c9_counterexample :
    get_block [⟨0, some [], [0]⟩] 0 0 0 = .error "IndexError: Palette"
      ∧ get_block [⟨0, some [], [0]⟩] 0 0 0 ≠ .ok airTag := by
  refine ⟨rfl, fun h => ?_⟩
  have h1 : get_block [⟨0, some [], [0]⟩] 0 0 0
      = Except.error "IndexError: Palette" := rfl
  exact Except.noConfusion (h1.symm.trans h)

/-- **C9 (amended).** For every in-bounds coordinate, get_block on a chunk
whose matching section is absent, or whose section lacks a Palette key,
returns the air tag (a Compound with Name = "minecraft:air") and never
raises; this silent default does NOT extend to an empty-but-present
palette, which raises IndexError at the palette lookup (counterexample). -/
theorem c9_air_default (sections : List SectionData) (x y z : Int)
    (hx1 : 0 ≤ x) (hx2 : x ≤ 15) (hy1 : 0 ≤ y) (hy2 : y ≤ 255)
    (hz1 : 0 ≤ z) (hz2 : z ≤ 15) :
    (sections.find? (fun s => s.y == y / 16) = none →
        get_block sections x y z = .ok airTag)
      ∧ (∀ sec, sections.find? (fun s => s.y == y / 16) = some sec →
          sec.palette = none → get_block sections x y z = .ok airTag) := by
  constructor
  · intro hfind
    unfold get_block
    rw [if_neg (by omega)]
    simp only [hfind]
  · intro sec hfind hpal
    unfold get_block
    rw [if_neg (by omega)]
    simp only [hfind, hpal]

theorem c9_air_default_witness :
    (([] : List SectionData).find? (fun s => s.y == (2 : Int) / 16) = none →
        get_block [] 1 2 3 = .ok airTag)
      ∧ (∀ sec : SectionData,
          ([⟨0, none, []⟩] : List SectionData).find? (fun s => s.y == (2 : Int) / 16)
              = some sec →
            sec.palette = none → get_block [⟨0, none, []⟩] 1 2 3 = .ok airTag) :=
  ⟨(c9_air_default [] 1 2 3 (by decide) (by decide) (by decide) (by decide)
      (by decide) (by decide)).1,
    (c9_air_default [⟨0, none, []⟩] 1 2 3 (by decide) (by decide) (by decide)
      (by decide) (by decide) (by decide)).2⟩

end InfiniFuse
